import Mathlib

/-!
Verification of the dependency-graph builder in `PR2/main.py`.

The development shallowly embeds the Python source: strings are Lean `String`
(char lists of code points; `lower` is modelled on the ASCII range, which is
what every name in the repository's fixtures and filters uses), Python dicts
are insertion-ordered association lists (`List (key × value)`), Python sets
that are only tested for membership are `List` with membership, and the BFS
`while` loop is a fuel-indexed iteration together with a proof that the fixed
fuel always suffices to drain the queue, so the embedded function computes the
same result as the unbounded loop.
-/

/-! ### String ordering (Python `sorted` on strings compares code points) -/

/-- Lexicographic comparison of char lists by code point, as Python compares strings. -/
def charsLe : List Char → List Char → Bool
  | [], _ => true
  | _ :: _, [] => false
  | a :: as, b :: bs => if a < b then true else if b < a then false else charsLe as bs

/-- String comparison by code points, matching Python's default string ordering. -/
def strLe (a b : String) : Bool := charsLe a.data b.data

/-- The ordering relation used by `sorted(...)` in the source. -/
def strRel (a b : String) : Prop := strLe a b = true

instance : DecidableRel strRel := fun a b => instDecidableEqBool (strLe a b) true

/-- Model of Python's `sorted` on a list of strings. -/
def sortStrings (l : List String) : List String := List.insertionSort strRel l

/-! ### Name sanitizer (`sanitize_requirement`) -/

/-- The ASCII whitespace characters matched by Python's `\s` and stripped by `str.strip()`. -/
def isPySpace (c : Char) : Bool :=
  c = ' ' || c = '\t' || c = '\n' || c = '\x0d' || c = '\x0b' || c = '\x0c'

/-- Characters of the version-specifier split `re.split(r"\s|\(|<|>|=|!", req)`. -/
def isSplitChar (c : Char) : Bool :=
  isPySpace c || c = '(' || c = '<' || c = '>' || c = '=' || c = '!'

/-- Model of `req.split(';', 1)[0]`: the prefix before the first semicolon. -/
def splitSemi (s : List Char) : List Char := s.takeWhile (fun c => !(c = ';'))

/-- Model of Python `str.strip()`: drop ASCII whitespace from both ends. -/
def stripChars (s : List Char) : List Char :=
  ((s.dropWhile isPySpace).reverse.dropWhile isPySpace).reverse

/-- Helper for the regex `\[.*?\]`: given the text after a `[`, return the text after the
first `]`, failing if a newline (not matched by `.`) comes first. -/
def bracketSplit : List Char → Option (List Char)
  | [] => none
  | c :: rest => if c = ']' then some rest else if c = '\n' then none else bracketSplit rest

/-- Fuel-indexed scan implementing `re.sub(r"\[.*?\]", "", s)`: at each `[` with a
matching `]` on the same line, the bracketed segment is removed and scanning resumes
after the `]`; an unmatched `[` is kept.  Any fuel of at least `s.length` is enough. -/
def removeBracketsAux : Nat → List Char → List Char
  | 0, l => l
  | _ + 1, [] => []
  | fuel + 1, c :: rest =>
    if c = '[' then
      match bracketSplit rest with
      | some r => removeBracketsAux fuel r
      | none => c :: removeBracketsAux fuel rest
    else c :: removeBracketsAux fuel rest

/-- Model of `re.sub(r"\[.*?\]", "", s)`. -/
def removeBrackets (s : List Char) : List Char := removeBracketsAux s.length s

/-- Model of `sanitize_requirement` from `PR2/main.py`: split off the environment marker
at the first `;` and strip, delete bracketed extras, then keep the prefix before the
first whitespace, `(`, `<`, `>`, `=` or `!`. -/
def sanitize_requirement (req : String) : String :=
  if req = "" then req
  else
    let s1 := stripChars (splitSemi req.data)
    let s2 := removeBrackets s1
    String.mk (s2.takeWhile (fun c => !isSplitChar c))

/-! ### Filter (`DependencyGraph._passes_filter`) -/

/-- Model of Python `str.lower()` (on the ASCII letters, which the repository uses). -/
def pyLower (s : String) : String := String.mk (s.data.map Char.toLower)

/-- Model of Python `str.strip()` on strings. -/
def pyStrip (s : String) : String := String.mk (stripChars s.data)

/-- Model of Python's substring test `p in s`. -/
def charsInfix : List Char → List Char → Bool
  | p, [] => p.isEmpty
  | p, c :: rest => p.isPrefixOf (c :: rest) || charsInfix p rest

/-- Substring containment on strings, Python's `p in s`. -/
def isSubstr (p s : String) : Bool := charsInfix p.data s.data

/-- Model of `DependencyGraph._passes_filter`: empty names are rejected; when a
(nonempty) filter is configured, names whose lowercased form contains it are rejected. -/
def passes_filter (filt : Option String) (name : String) : Bool :=
  if name = "" then false
  else
    match filt with
    | none => true
    | some f => if f = "" then true else if isSubstr f (pyLower name) then false else true

/-- Model of the `DependencyGraph.__init__` filter normalisation:
`self.name_filter = name_filter.lower() if name_filter else None`. -/
def mkFilter : Option String → Option String
  | none => none
  | some f => if f = "" then none else some (pyLower f)

/-! ### Association-list dictionaries (Python `dict` and `defaultdict(set)`) -/

/-- `graph.get(package_name, [])` of `LocalGraphSource.get_direct_dependencies`. -/
def gget (g : List (String × List String)) (u : String) : List String :=
  (List.lookup u g).getD []

/-- `d.get(k, dflt)` on a dict modelled as an association list. -/
def dictGetD (d : List (String × Nat)) (k : String) (dflt : Nat) : Nat :=
  (List.lookup k d).getD dflt

/-- `d[k] = v` on an insertion-ordered dict: update in place or append a new key. -/
def dictSet : List (String × Nat) → String → Nat → List (String × Nat)
  | [], k, v => [(k, v)]
  | (k', v') :: rest, k, v =>
    if k' = k then (k', v) :: rest else (k', v') :: dictSet rest k v

/-- `d.setdefault(k, v)`: insert `k ↦ v` only when `k` is not yet a key. -/
def dictSetdefault (d : List (String × Nat)) (k : String) (v : Nat) : List (String × Nat) :=
  if (List.lookup k d).isSome then d else d ++ [(k, v)]

/-- `self.adj[current].add(name)` on `defaultdict(set)`: create the entry if needed and
add `name` to the neighbor set (sets are modelled as first-insertion-ordered
duplicate-free lists; only membership and sorting are ever observed). -/
def adjAdd : List (String × List String) → String → String → List (String × List String)
  | [], u, v => [(u, [v])]
  | (k, l) :: rest, u, v =>
    if k = u then (k, if l.contains v then l else l ++ [v]) :: rest
    else (k, l) :: adjAdd rest u v

/-- `v in adj[u]`: membership of an edge in the adjacency structure. -/
def memAdj (adj : List (String × List String)) (u v : String) : Bool :=
  ((List.lookup u adj).getD []).contains v

/-! ### The BFS builder (`DependencyGraph.build_bfs`) -/

/-- The loop state of `build_bfs`: the FIFO queue, the depth dict, the visited set, the
instance field `self.adj`, and the log of names passed to
`source.get_direct_dependencies` (used to state which nodes get expanded). -/
structure BfsState where
  q : List String
  depth : List (String × Nat)
  seen : List String
  adj : List (String × List String)
  calls : List String

/-- The body of `for raw in deps:` in `build_bfs`: sanitize, drop empty and filtered
names, record the edge, and enqueue first-seen names with depth `cd + 1`; names seen
before only get `depth.setdefault(name, min(depth.get(name, 10**9), cd + 1))`. -/
def processDep (filt : Option String) (current : String) (cd : Nat)
    (st : BfsState) (raw : String) : BfsState :=
  let name := sanitize_requirement raw
  if name = "" then st
  else if passes_filter filt name = false then st
  else
    let st1 : BfsState := { st with adj := adjAdd st.adj current name }
    if st1.seen.contains name then
      { st1 with
        depth := dictSetdefault st1.depth name
          (min (dictGetD st1.depth name 1000000000) (cd + 1)) }
    else
      { st1 with
        seen := name :: st1.seen
        depth := dictSet st1.depth name (cd + 1)
        q := st1.q ++ [name] }

/-- The `while q:` loop of `build_bfs`, one fuel unit per iteration: pop `current`;
if its depth reached `max_depth` do not expand it, otherwise fetch its direct
dependencies from the source and process each one. -/
def bfsLoop (g : List (String × List String)) (maxD : Nat) (filt : Option String) :
    Nat → BfsState → BfsState
  | 0, st => st
  | fuel + 1, st =>
    match st.q with
    | [] => st
    | current :: rest =>
      let cd := dictGetD st.depth current 0
      if cd ≥ maxD then
        bfsLoop g maxD filt fuel { st with q := rest }
      else
        let deps := gget g current
        let st1 : BfsState := { st with q := rest, calls := st.calls ++ [current] }
        bfsLoop g maxD filt fuel (deps.foldl (processDep filt current cd) st1)

/-- The state of `build_bfs` just after the root is enqueued (`adj0` is the content of
the instance field `self.adj`, empty for a freshly constructed `DependencyGraph`). -/
def bfsInit (adj0 : List (String × List String)) (root : String) : BfsState :=
  { q := [root], depth := [(root, 0)], seen := [root], adj := adj0, calls := [] }

/-- Fuel that always drains the queue: the loop runs at most one iteration per distinct
name the source can ever produce (the stripped root plus the sanitized members of the
fixture's dependency lists); see `bfsFinal_q_nil`. -/
def bfsFuel (g : List (String × List String)) (root : String) : Nat :=
  (root :: ((g.map Prod.snd).flatten.map sanitize_requirement)).length

/-- The final loop state of one `build_bfs` invocation (before the filter short-circuit
on the root is taken into account). -/
def bfsFinal (g : List (String × List String)) (maxD : Nat) (filt : Option String)
    (adj0 : List (String × List String)) (root : String) : BfsState :=
  let r := pyStrip root
  bfsLoop g maxD filt (bfsFuel g r) (bfsInit adj0 r)

/-- Model of `DependencyGraph.build_bfs`: strip the root, short-circuit to two empty
maps when it fails the filter, otherwise run the BFS loop and return
`(self.adj, depth)`. -/
def build_bfs (g : List (String × List String)) (maxD : Nat) (filt : Option String)
    (adj0 : List (String × List String)) (root : String) :
    List (String × List String) × List (String × Nat) :=
  let r := pyStrip root
  if passes_filter filt r = false then ([], [])
  else
    let fin := bfsFinal g maxD filt adj0 root
    (fin.adj, fin.depth)

/-! ### Export (`DependencyGraph.export_adjlist`) -/

/-- Model of `export_adjlist`: `{k: sorted(list(v)) for k, v in self.adj.items()}` —
each neighbor set is sorted, keys keep the dict's insertion-iteration order. -/
def export_adjlist (adj : List (String × List String)) : List (String × List String) :=
  adj.map (fun kv => (kv.1, sortStrings kv.2))

/-! ### Tree renderer (`DependencyGraph.ascii_tree`) -/

/-- `self.adj.get(node, [])` as read by the renderer. -/
def adjGet (adj : List (String × List String)) (node : String) : List String :=
  (List.lookup node adj).getD []

/-- Model of the recursive `_recurse(node, prefix, visited_path, current_depth)` of
`ascii_tree`: emit the node's line; stop when the depth bound is reached; emit a single
cycle marker and stop when the node repeats on the current path; otherwise recurse into
the lexicographically sorted children with two more spaces of indentation. -/
def asciiLines (adj : List (String × List String)) (maxD : Nat) :
    String → String → List String → Nat → List String
  | node, pfx, path, d =>
    (pfx ++ node) ::
      (if _h : d ≥ maxD then []
       else if path.contains node then [pfx ++ "  (обнаружен цикл к " ++ node ++ ")"]
       else
         (sortStrings (adjGet adj node)).flatMap
           (fun c => asciiLines adj maxD c (pfx ++ "  ") (node :: path) (d + 1)))
termination_by _ _ _ d => maxD - d
decreasing_by omega

/-- Structural-recursion companion of `asciiLines`, indexed by the remaining depth
budget `maxD - d`; kernel-computable, and equal to `asciiLines` by
`asciiLines_eq_budget`. -/
def asciiBudget (adj : List (String × List String)) :
    Nat → String → String → List String → List String
  | 0, node, pfx, _ => [pfx ++ node]
  | rem + 1, node, pfx, path =>
    (pfx ++ node) ::
      (if path.contains node then [pfx ++ "  (обнаружен цикл к " ++ node ++ ")"]
       else
         (sortStrings (adjGet adj node)).flatMap
           (fun c => asciiBudget adj rem c (pfx ++ "  ") (node :: path)))

/-- Model of `ascii_tree`: render from the root with empty prefix, empty path and
depth 0, and join the lines with newlines. -/
def ascii_tree (adj : List (String × List String)) (maxD : Nat) (root : String) : String :=
  String.intercalate "\n" (asciiLines adj maxD root "" [] 0)

/-! ### Invariant predicates -/

/-- The visited set and the depth keys always hold the same names. -/
def SeenKeys (st : BfsState) : Prop := ∀ v, v ∈ st.seen ↔ v ∈ st.depth.map Prod.fst

/-- Everything one `for raw in deps:` pass of `build_bfs` does, in terms of the freshly
discovered names `news` (in discovery order): they are appended to the queue and to the
depth dict at depth `cd + 1`, added to `seen`, and the recorded edges out of `current`
are exactly the sanitized, nonempty, filter-passing members of `deps`. -/
structure FoldFacts (filt : Option String) (cur : String) (cd : Nat)
    (deps : List String) (st st' : BfsState) (news : List String) : Prop where
  q_eq : st'.q = st.q ++ news
  depth_eq : st'.depth = st.depth ++ news.map (fun n => (n, cd + 1))
  seen_iff : ∀ v, v ∈ st'.seen ↔ v ∈ st.seen ∨ v ∈ news
  calls_eq : st'.calls = st.calls
  news_nodup : news.Nodup
  news_spec : ∀ n ∈ news, n ∉ st.seen ∧ (∃ raw ∈ deps, n = sanitize_requirement raw) ∧
      n ≠ "" ∧ passes_filter filt n = true
  deps_spec : ∀ raw ∈ deps, sanitize_requirement raw ≠ "" →
      passes_filter filt (sanitize_requirement raw) = true →
      ((sanitize_requirement raw ∈ st.seen ∨ sanitize_requirement raw ∈ news) ∧
        sanitize_requirement raw ∈ adjGet st'.adj cur)
  adj_elim : ∀ u w, w ∈ adjGet st'.adj u → w ∈ adjGet st.adj u ∨
      (u = cur ∧ ∃ raw ∈ deps, w = sanitize_requirement raw ∧ w ≠ "" ∧
        passes_filter filt w = true)
  adj_mono : ∀ u w, w ∈ adjGet st.adj u → w ∈ adjGet st'.adj u
  adj_keys : ∀ u, u ∈ st'.adj.map Prod.fst → u ∈ st.adj.map Prod.fst ∨ u = cur

/-- Measure justifying termination of the `while q:` loop: distinct names (out of the
finite universe `U` the source can produce) not yet visited, plus the queue length. -/
def bfsMeasure (U : List String) (st : BfsState) : Nat :=
  (U.toFinset \ st.seen.toFinset).card + st.q.length

/-- Invariant of all loop states of one `build_bfs` run started on a fresh instance
(empty `self.adj`), for an arbitrary graph and filter: visited = depth keys, keys are
never duplicated, queued names have depths, every stored name passes the filter, depths
never exceed `max_depth`, the stripped root keeps depth `0`, adjacency keys are expanded
nodes (depth `< max_depth`), adjacency members are recorded nodes, and the source is
only ever called on nodes with recorded depth `< max_depth`. -/
structure GInv (maxD : Nat) (filt : Option String) (root' : String) (st : BfsState) :
    Prop where
  sk : SeenKeys st
  keys_nodup : (st.depth.map Prod.fst).Nodup
  q_sub : ∀ v ∈ st.q, v ∈ st.depth.map Prod.fst
  pass : ∀ v ∈ st.depth.map Prod.fst, passes_filter filt v = true
  vals_le : ∀ p ∈ st.depth, p.2 ≤ maxD
  root0 : (root', 0) ∈ st.depth
  adjk_lt : ∀ u ∈ st.adj.map Prod.fst, ∃ n, (u, n) ∈ st.depth ∧ n < maxD
  adjm : ∀ u w, w ∈ adjGet st.adj u → w ∈ st.depth.map Prod.fst
  calls_ok : ∀ u ∈ st.calls, ∃ n, (u, n) ∈ st.depth ∧ n < maxD

/-- Paths in the dependency graph: `ReachIn g root n v` holds when some directed path of
exactly `n` edges leads from `root` to `v` along the fixture's adjacency lists. -/
inductive ReachIn (g : List (String × List String)) (root : String) : Nat → String → Prop
  | zero : ReachIn g root 0 root
  | succ {n : Nat} {u v : String} : ReachIn g root n u → v ∈ gget g u →
      ReachIn g root (n + 1) v

/-- `v` is reachable from the root. -/
def Reachable (g : List (String × List String)) (root v : String) : Prop :=
  ∃ n, ReachIn g root n v

/-- `n` is the shortest-path distance (in edges) from `root` to `v`. -/
def IsShortestDist (g : List (String × List String)) (root v : String) (n : Nat) : Prop :=
  ReachIn g root n v ∧ ∀ m, ReachIn g root m v → n ≤ m

/-- Every name stored in the fixture's dependency lists is a bare package name:
sanitization is the identity on it and it is nonempty. -/
def CleanGraph (g : List (String × List String)) : Prop :=
  ∀ p ∈ g, ∀ v ∈ p.2, sanitize_requirement v = v ∧ v ≠ ""

instance (g : List (String × List String)) : Decidable (CleanGraph g) :=
  decidable_of_iff (∀ p ∈ g, ∀ v ∈ p.2, sanitize_requirement v = v ∧ v ≠ "") Iff.rfl

/-- Extra invariant of the loop states of a `build_bfs` run over a clean graph with no
filter: recorded depths are path lengths, queued depths are nondecreasing and all
recorded depths stay within one of the queue head's, and every already-expanded node has
all its neighbors recorded at depth at most one more than its own, with the edge in the
adjacency map. -/
structure CInv (g : List (String × List String)) (maxD : Nat) (root' : String)
    (st : BfsState) : Prop where
  sound : ∀ p ∈ st.depth, ReachIn g root' p.2 p.1
  q_mono : List.Pairwise (· ≤ ·) (st.q.map (fun v => dictGetD st.depth v 0))
  band : ∀ c, st.q.head? = some c → ∀ p ∈ st.depth, p.2 ≤ dictGetD st.depth c 0 + 1
  q_nodup : st.q.Nodup
  complete : ∀ v, v ∈ st.depth.map Prod.fst → v ∉ st.q → dictGetD st.depth v 0 < maxD →
      ∀ w ∈ gget g v, ∃ m ≤ dictGetD st.depth v 0 + 1, (w, m) ∈ st.depth
  adj_done : ∀ v, v ∈ st.depth.map Prod.fst → v ∉ st.q → dictGetD st.depth v 0 < maxD →
      ∀ w ∈ gget g v, w ∈ adjGet st.adj v

/-! ### Fixture graphs from `run_demo` and the spec's scenarios -/

/-- The acyclic demo fixture `{"A": ["B","C"], "B": ["D"], "C": [], "D": []}`. -/
def fixAcyclic : List (String × List String) :=
  [("A", ["B", "C"]), ("B", ["D"]), ("C", []), ("D", [])]

/-- The cycle demo fixture `{"A": ["B"], "B": ["C"], "C": ["A"]}`. -/
def fixCycle : List (String × List String) := [("A", ["B"]), ("B", ["C"]), ("C", ["A"])]

/-- A two-node cycle through the root. -/
def fixTwoCycle : List (String × List String) := [("A", ["B"]), ("B", ["A"])]

/-- Two disconnected components, used to exercise repeated `build_bfs` calls. -/
def fixTwoComp : List (String × List String) := [("A", ["B"]), ("X", ["Y"])]

/-- A diamond adjacency: `D` is reachable along two non-overlapping paths. -/
def diamondAdj : List (String × List String) :=
  [("A", ["B", "C"]), ("B", ["D"]), ("C", ["D"])]

/-- Two loop states that agree on everything except the instance field `self.adj`. -/
def EqExceptAdj (s t : BfsState) : Prop :=
  s.q = t.q ∧ s.depth = t.depth ∧ s.seen = t.seen ∧ s.calls = t.calls

/-- Decidable check that two adjacency structures are equal as mappings from node to
neighbor set (values compared after sorting, i.e. as sets of names). -/
def adjMapEquiv (a b : List (String × List String)) : Bool :=
  (a.all fun kv =>
    match List.lookup kv.1 b with
    | some l => sortStrings l == sortStrings kv.2
    | none => false) &&
  (b.all fun kv =>
    match List.lookup kv.1 a with
    | some l => sortStrings l == sortStrings kv.2
    | none => false)

/-! ### The sort order is a linear order -/

theorem bracketSplit_length : ∀ l r, bracketSplit l = some r → r.length < l.length := by
  intro l
  induction l with
  | nil => intro r h; simp [bracketSplit] at h
  | cons c rest ih =>
    intro r h
    simp only [bracketSplit] at h
    by_cases hc : c = ']'
    · simp [hc] at h
      simp [← h]
    · by_cases hn : c = '\n'
      · simp [hc, hn] at h
      · simp [hc, hn] at h
        exact Nat.lt_trans (ih r h) (by simp)

theorem charsLe_total : ∀ a b, charsLe a b = true ∨ charsLe b a = true := by
  intro a
  induction a with
  | nil => intro b; left; rfl
  | cons x xs ih =>
    intro b
    cases b with
    | nil => right; rfl
    | cons y ys =>
      by_cases hxy : x < y
      · left; simp [charsLe, hxy]
      · by_cases hyx : y < x
        · right; simp [charsLe, hyx]
        · rcases ih ys with h | h
          · left; simp [charsLe, hxy, hyx, h]
          · right; simp [charsLe, hxy, hyx, h]

theorem charsLe_antisymm : ∀ a b, charsLe a b = true → charsLe b a = true → a = b := by
  intro a
  induction a with
  | nil =>
    intro b _ hba
    cases b with
    | nil => rfl
    | cons y ys => simp [charsLe] at hba
  | cons x xs ih =>
    intro b hab hba
    cases b with
    | nil => simp [charsLe] at hab
    | cons y ys =>
      by_cases hxy : x < y
      · simp [charsLe, hxy, lt_asymm hxy] at hba
      · by_cases hyx : y < x
        · simp [charsLe, hxy, hyx] at hab
        · have hx : x = y := le_antisymm (not_lt.mp hyx) (not_lt.mp hxy)
          subst hx
          simp only [charsLe, lt_irrefl, if_neg (lt_irrefl x), if_false] at hab hba
          simp [ih ys hab hba]

theorem charsLe_trans : ∀ a b c, charsLe a b = true → charsLe b c = true → charsLe a c = true := by
  intro a
  induction a with
  | nil => intro b c _ _; rfl
  | cons x xs ih =>
    intro b c hab hbc
    cases b with
    | nil => simp [charsLe] at hab
    | cons y ys =>
      cases c with
      | nil => simp [charsLe] at hbc
      | cons z zs =>
        by_cases hxy : x < y
        · by_cases hyz : y < z
          · simp [charsLe, lt_trans hxy hyz]
          · by_cases hzy : z < y
            · simp [charsLe, hyz, hzy] at hbc
            · have : y = z := le_antisymm (not_lt.mp hzy) (not_lt.mp hyz)
              subst this
              simp [charsLe, hxy]
        · by_cases hyx : y < x
          · simp [charsLe, hxy, hyx] at hab
          · have : x = y := le_antisymm (not_lt.mp hyx) (not_lt.mp hxy)
            subst this
            simp only [charsLe, lt_irrefl, if_neg (lt_irrefl x), if_false] at hab
            by_cases hxz : x < z
            · simp [charsLe, hxz]
            · by_cases hzx : z < x
              · simp [charsLe, hxz, hzx] at hbc
              · have : x = z := le_antisymm (not_lt.mp hzx) (not_lt.mp hxz)
                subst this
                simp only [charsLe, lt_irrefl, if_neg (lt_irrefl x), if_false] at hbc ⊢
                exact ih ys zs hab hbc

instance : IsTotal String strRel := ⟨fun a b => charsLe_total a.data b.data⟩

instance : IsTrans String strRel := ⟨fun a b c => charsLe_trans a.data b.data c.data⟩

instance : IsAntisymm String strRel :=
  ⟨fun a b hab hba => by
    cases a with
    | mk da =>
      cases b with
      | mk db => exact congrArg String.mk (charsLe_antisymm da db hab hba)⟩

/-- Sorting does not depend on the order the elements were inserted in. -/
theorem sortStrings_perm_congr (l l' : List String) (h : l.Perm l') :
    sortStrings l = sortStrings l' := by
  refine List.eq_of_perm_of_sorted ?_ (List.sorted_insertionSort _ _)
    (List.sorted_insertionSort _ _)
  exact (List.perm_insertionSort _ _).trans (h.trans (List.perm_insertionSort _ _).symm)

/-! ### Association-list lemmas -/

theorem lookup_append_some {β : Type} {k : String} {v : β} {l1 l2 : List (String × β)}
    (h : List.lookup k l1 = some v) : List.lookup k (l1 ++ l2) = some v := by
  induction l1 with
  | nil => simp [List.lookup] at h
  | cons p rest ih =>
    rw [List.cons_append, List.lookup]
    rw [List.lookup] at h
    cases hk : (k == p.1) with
    | true => rwa [hk] at h
    | false => rw [hk] at h; exact ih h

theorem lookup_append_none {β : Type} {k : String} {l1 l2 : List (String × β)}
    (h : List.lookup k l1 = none) : List.lookup k (l1 ++ l2) = List.lookup k l2 := by
  induction l1 with
  | nil => simp
  | cons p rest ih =>
    rw [List.cons_append, List.lookup]
    rw [List.lookup] at h
    cases hk : (k == p.1) with
    | true => rw [hk] at h; simp at h
    | false => rw [hk] at h; exact ih h

theorem mem_of_lookup_eq_some {β : Type} {k : String} {v : β} {l : List (String × β)}
    (h : List.lookup k l = some v) : (k, v) ∈ l := by
  induction l with
  | nil => simp [List.lookup] at h
  | cons p rest ih =>
    rw [List.lookup] at h
    cases hk : (k == p.1) with
    | true =>
      rw [hk] at h
      have hkp : k = p.1 := by simpa using hk
      have hv : p.2 = v := by simpa using h
      have : (k, v) = p := by rw [hkp, ← hv]
      rw [this]
      exact List.mem_cons_self _ _
    | false =>
      rw [hk] at h
      exact List.mem_cons_of_mem _ (ih h)

theorem lookup_none_iff {β : Type} {k : String} {l : List (String × β)} :
    List.lookup k l = none ↔ k ∉ l.map Prod.fst := by
  induction l with
  | nil => simp
  | cons p rest ih =>
    rw [List.lookup]
    cases hk : (k == p.1) with
    | true =>
      have : k = p.1 := by simpa using hk
      simp [this]
    | false =>
      have : ¬ k = p.1 := by simpa using hk
      simp [this, ih]

theorem lookup_isSome_iff {β : Type} {k : String} {l : List (String × β)} :
    (List.lookup k l).isSome = true ↔ k ∈ l.map Prod.fst := by
  constructor
  · intro h
    cases hs : List.lookup k l with
    | none => rw [hs] at h; cases h
    | some v => exact List.mem_map.mpr ⟨(k, v), mem_of_lookup_eq_some hs, rfl⟩
  · intro h
    cases hs : List.lookup k l with
    | none => exact absurd h (lookup_none_iff.mp hs)
    | some v => rfl

theorem lookup_eq_some_of_mem_nodup {β : Type} {k : String} {v : β} {l : List (String × β)}
    (hmem : (k, v) ∈ l) (hnd : (l.map Prod.fst).Nodup) : List.lookup k l = some v := by
  induction l with
  | nil => simp at hmem
  | cons p rest ih =>
    rw [List.map_cons, List.nodup_cons] at hnd
    rcases List.mem_cons.mp hmem with h | h
    · rw [← h, List.lookup]
      simp
    · have hk : ¬ k = p.1 := by
        intro hkp
        exact hnd.1 (hkp ▸ (List.mem_map.mpr ⟨(k, v), h, rfl⟩))
      rw [List.lookup]
      have : (k == p.1) = false := by simpa using hk
      rw [this]
      exact ih h hnd.2

theorem contains_iff_mem {l : List String} {a : String} : l.contains a = true ↔ a ∈ l :=
  List.elem_iff

theorem lookup_cons_self {β : Type} {k : String} {v : β} {rest : List (String × β)} :
    List.lookup k ((k, v) :: rest) = some v := by
  simp [List.lookup]

theorem lookup_cons_ne {β : Type} {x k : String} {v : β} {rest : List (String × β)}
    (h : ¬ x = k) : List.lookup x ((k, v) :: rest) = List.lookup x rest := by
  have hb : (x == k) = false := by simpa using h
  simp [List.lookup, hb]

theorem dictSet_fresh {l : List (String × Nat)} {k : String} {v : Nat}
    (h : k ∉ l.map Prod.fst) : dictSet l k v = l ++ [(k, v)] := by
  induction l with
  | nil => rfl
  | cons p rest ih =>
    have hk : ¬ p.1 = k := by
      intro hpk
      exact h (List.mem_map.mpr ⟨p, List.mem_cons_self _ _, hpk⟩)
    obtain ⟨k', v'⟩ := p
    rw [dictSet, if_neg hk]
    rw [List.cons_append]
    have : k ∉ rest.map Prod.fst := fun hm => h (by simp [hm])
    rw [ih this]

theorem dictSetdefault_of_mem {l : List (String × Nat)} {k : String} {v : Nat}
    (h : k ∈ l.map Prod.fst) : dictSetdefault l k v = l := by
  rw [dictSetdefault, if_pos (lookup_isSome_iff.mpr h)]

/-- `adjAdd` only changes the entry of `u`, where it appends `v` if absent. -/
theorem lookup_adjAdd (a : List (String × List String)) (u v x : String) :
    List.lookup x (adjAdd a u v) =
      if x = u then
        some (if ((List.lookup u a).getD []).contains v then (List.lookup u a).getD []
              else (List.lookup u a).getD [] ++ [v])
      else List.lookup x a := by
  induction a with
  | nil =>
    by_cases hx : x = u
    · subst hx
      simp [adjAdd, List.lookup]
    · have : (x == u) = false := by simpa using hx
      simp [adjAdd, List.lookup, this, hx]
  | cons p rest ih =>
    obtain ⟨k, l⟩ := p
    by_cases hk : k = u
    · rw [adjAdd, if_pos hk, hk]
      by_cases hx : x = u
      · rw [hx, lookup_cons_self, lookup_cons_self, if_pos rfl]
        simp
      · rw [lookup_cons_ne hx, lookup_cons_ne hx, if_neg hx]
    · rw [adjAdd, if_neg hk]
      have hu : ¬ u = k := fun h => hk h.symm
      rw [lookup_cons_ne hu]
      by_cases hx : x = k
      · rw [hx, lookup_cons_self]
        have hku : ¬ k = u := hk
        rw [if_neg hku, lookup_cons_self]
      · rw [lookup_cons_ne hx, lookup_cons_ne hx, ih]

/-- The neighbor list read back after `adjAdd`. -/
theorem adjGet_adjAdd (a : List (String × List String)) (u v x : String) :
    adjGet (adjAdd a u v) x =
      if x = u then (if (adjGet a u).contains v then adjGet a u else adjGet a u ++ [v])
      else adjGet a x := by
  rw [adjGet, lookup_adjAdd]
  by_cases hx : x = u
  · simp [hx, adjGet]
  · simp [hx, adjGet]

theorem memAdj_eq_contains (a : List (String × List String)) (u v : String) :
    memAdj a u v = (adjGet a u).contains v := rfl

theorem mem_adjGet_adjAdd_iff {a : List (String × List String)} {u v x y : String} :
    y ∈ adjGet (adjAdd a u v) x ↔ y ∈ adjGet a x ∨ (x = u ∧ y = v) := by
  rw [adjGet_adjAdd]
  by_cases hx : x = u
  · subst hx
    rw [if_pos rfl]
    by_cases hc : (adjGet a x).contains v
    · rw [if_pos hc]
      constructor
      · intro h; exact Or.inl h
      · rintro (h | ⟨-, rfl⟩)
        · exact h
        · exact contains_iff_mem.mp hc
    · rw [if_neg hc]
      rw [List.mem_append]
      constructor
      · rintro (h | h)
        · exact Or.inl h
        · exact Or.inr ⟨rfl, by simpa using h⟩
      · rintro (h | ⟨-, rfl⟩)
        · exact Or.inl h
        · exact Or.inr (by simp)
  · rw [if_neg hx]
    constructor
    · intro h; exact Or.inl h
    · rintro (h | ⟨hxu, -⟩)
      · exact h
      · exact absurd hxu hx

theorem memAdj_true_iff {a : List (String × List String)} {u v : String} :
    memAdj a u v = true ↔ v ∈ adjGet a u := by
  rw [memAdj_eq_contains]
  exact contains_iff_mem

/-- Keys present after `adjAdd`. -/
theorem keys_adjAdd_iff {a : List (String × List String)} {u v x : String} :
    x ∈ (adjAdd a u v).map Prod.fst ↔ x = u ∨ x ∈ a.map Prod.fst := by
  rw [← lookup_isSome_iff, ← lookup_isSome_iff, lookup_adjAdd]
  by_cases hx : x = u
  · simp [hx]
  · simp [hx]

theorem lookup_constMap_of_mem {news : List String} {k : String} {c : Nat}
    (h : k ∈ news) : List.lookup k (news.map (fun m => (m, c))) = some c := by
  induction news with
  | nil => simp at h
  | cons x xs ih =>
    rw [List.map_cons, List.lookup]
    by_cases hk : k = x
    · simp [hk]
    · have : (k == x) = false := by simpa using hk
      rw [this]
      exact ih (List.mem_cons.mp h |>.resolve_left hk)

theorem lookup_constMap_of_not_mem {news : List String} {k : String} {c : Nat}
    (h : k ∉ news) : List.lookup k (news.map (fun m => (m, c))) = none := by
  induction news with
  | nil => rfl
  | cons x xs ih =>
    rw [List.map_cons, List.lookup]
    have hk : ¬ k = x := fun hkx => h (hkx ▸ List.mem_cons_self _ _)
    have : (k == x) = false := by simpa using hk
    rw [this]
    exact ih (fun hm => h (List.mem_cons_of_mem _ hm))

/-! ### Characterization of one dependency-processing pass -/

/-- Unfolded form of `processDep` with the instance-state projections reduced. -/
theorem processDep_eq (filt : Option String) (cur : String) (cd : Nat)
    (st : BfsState) (raw : String) :
    processDep filt cur cd st raw =
      if sanitize_requirement raw = "" then st
      else if passes_filter filt (sanitize_requirement raw) = false then st
      else if st.seen.contains (sanitize_requirement raw) then
        { st with adj := adjAdd st.adj cur (sanitize_requirement raw)
                  depth := dictSetdefault st.depth (sanitize_requirement raw)
                    (min (dictGetD st.depth (sanitize_requirement raw) 1000000000) (cd + 1)) }
      else
        { st with adj := adjAdd st.adj cur (sanitize_requirement raw)
                  seen := sanitize_requirement raw :: st.seen
                  depth := dictSet st.depth (sanitize_requirement raw) (cd + 1)
                  q := st.q ++ [sanitize_requirement raw] } := rfl

theorem foldChar (filt : Option String) (cur : String) (cd : Nat) :
    ∀ (deps : List String) (st : BfsState), SeenKeys st →
    ∃ news, FoldFacts filt cur cd deps st (deps.foldl (processDep filt cur cd) st) news := by
  intro deps
  induction deps with
  | nil =>
    intro st _
    refine ⟨[], ?_, ?_, ?_, rfl, List.nodup_nil, ?_, ?_, ?_, ?_, ?_⟩
    · simp
    · simp
    · simp
    · simp
    · simp
    · intro u w h; exact Or.inl h
    · intro u w h; exact h
    · intro u h; exact Or.inl h
  | cons raw rest ih =>
    intro st hsk
    rw [List.foldl_cons]
    by_cases hname : sanitize_requirement raw = ""
    · have hstep : processDep filt cur cd st raw = st := by
        rw [processDep_eq, if_pos hname]
      rw [hstep]
      obtain ⟨news, hf⟩ := ih st hsk
      refine ⟨news, hf.q_eq, hf.depth_eq, hf.seen_iff, hf.calls_eq, hf.news_nodup, ?_, ?_, ?_,
        hf.adj_mono, hf.adj_keys⟩
      · intro n hn
        obtain ⟨h1, ⟨r, hr, hr2⟩, h3, h4⟩ := hf.news_spec n hn
        exact ⟨h1, ⟨r, List.mem_cons_of_mem _ hr, hr2⟩, h3, h4⟩
      · intro r hr hne hp
        rcases List.mem_cons.mp hr with h | h
        · exact absurd hname (h ▸ hne)
        · exact hf.deps_spec r h hne hp
      · intro u w hw
        rcases hf.adj_elim u w hw with h | ⟨hu, r, hr, hspec⟩
        · exact Or.inl h
        · exact Or.inr ⟨hu, r, List.mem_cons_of_mem _ hr, hspec⟩
    · by_cases hpass : passes_filter filt (sanitize_requirement raw) = true
      · -- the name is recorded
        by_cases hseen : sanitize_requirement raw ∈ st.seen
        · -- already visited: only the edge is added
          have hc : st.seen.contains (sanitize_requirement raw) = true :=
            contains_iff_mem.mpr hseen
          have hmemk : sanitize_requirement raw ∈ st.depth.map Prod.fst :=
            (hsk _).mp hseen
          have hstep : processDep filt cur cd st raw =
              { st with adj := adjAdd st.adj cur (sanitize_requirement raw) } := by
            rw [processDep_eq, if_neg hname, if_neg (by simp [hpass]), if_pos hc,
              dictSetdefault_of_mem hmemk]
          rw [hstep]
          set st1 : BfsState := { st with adj := adjAdd st.adj cur (sanitize_requirement raw) }
          have hsk1 : SeenKeys st1 := hsk
          obtain ⟨news, hf⟩ := ih st1 hsk1
          refine ⟨news, hf.q_eq, hf.depth_eq, hf.seen_iff, hf.calls_eq, hf.news_nodup, ?_, ?_,
            ?_, ?_, ?_⟩
          · intro n hn
            obtain ⟨h1, ⟨r, hr, hr2⟩, h3, h4⟩ := hf.news_spec n hn
            exact ⟨h1, ⟨r, List.mem_cons_of_mem _ hr, hr2⟩, h3, h4⟩
          · intro r hr hne hp
            rcases List.mem_cons.mp hr with h | h
            · subst h
              refine ⟨Or.inl hseen, ?_⟩
              exact hf.adj_mono _ _ (mem_adjGet_adjAdd_iff.mpr (Or.inr ⟨rfl, rfl⟩))
            · exact hf.deps_spec r h hne hp
          · intro u w hw
            rcases hf.adj_elim u w hw with h | ⟨hu, r, hr, hspec⟩
            · rcases mem_adjGet_adjAdd_iff.mp h with h2 | ⟨hu2, hw2⟩
              · exact Or.inl h2
              · exact Or.inr ⟨hu2, raw, List.mem_cons_self _ _, hw2, hw2 ▸ hname, hw2 ▸ hpass⟩
            · exact Or.inr ⟨hu, r, List.mem_cons_of_mem _ hr, hspec⟩
          · intro u w hw
            exact hf.adj_mono u w (mem_adjGet_adjAdd_iff.mpr (Or.inl hw))
          · intro u hu
            rcases hf.adj_keys u hu with h | h
            · rcases keys_adjAdd_iff.mp h with h2 | h2
              · exact Or.inr h2
              · exact Or.inl h2
            · exact Or.inr h
        · -- fresh name: edge, seen, depth and queue entry
          have hc : st.seen.contains (sanitize_requirement raw) = false := by
            cases h : st.seen.contains (sanitize_requirement raw) with
            | true => exact absurd (contains_iff_mem.mp h) hseen
            | false => rfl
          have hfresh : sanitize_requirement raw ∉ st.depth.map Prod.fst :=
            fun h => hseen ((hsk _).mpr h)
          have hstep : processDep filt cur cd st raw =
              { st with adj := adjAdd st.adj cur (sanitize_requirement raw)
                        seen := sanitize_requirement raw :: st.seen
                        depth := st.depth ++ [(sanitize_requirement raw, cd + 1)]
                        q := st.q ++ [sanitize_requirement raw] } := by
            rw [processDep_eq, if_neg hname, if_neg (by simp [hpass]),
              if_neg (by rw [hc]; simp), dictSet_fresh hfresh]
          rw [hstep]
          set nm := sanitize_requirement raw with hnm
          set st1 : BfsState :=
            { st with adj := adjAdd st.adj cur nm
                      seen := nm :: st.seen
                      depth := st.depth ++ [(nm, cd + 1)]
                      q := st.q ++ [nm] } with hst1
          have hsk1 : SeenKeys st1 := by
            intro v
            show v ∈ nm :: st.seen ↔ v ∈ (st.depth ++ [(nm, cd + 1)]).map Prod.fst
            rw [List.mem_cons, List.map_append, List.mem_append]
            constructor
            · rintro (h | h)
              · exact Or.inr (by simp [h])
              · exact Or.inl ((hsk v).mp h)
            · rintro (h | h)
              · exact Or.inr ((hsk v).mpr h)
              · simp at h
                exact Or.inl h
          obtain ⟨news1, hf⟩ := ih st1 hsk1
          refine ⟨nm :: news1, ?_, ?_, ?_, hf.calls_eq, ?_, ?_, ?_, ?_, ?_, ?_⟩
          · rw [hf.q_eq]
            show (st.q ++ [nm]) ++ news1 = st.q ++ nm :: news1
            simp
          · rw [hf.depth_eq]
            show (st.depth ++ [(nm, cd + 1)]) ++ news1.map (fun n => (n, cd + 1)) =
              st.depth ++ (nm :: news1).map (fun n => (n, cd + 1))
            simp
          · intro v
            rw [hf.seen_iff v]
            show v ∈ nm :: st.seen ∨ v ∈ news1 ↔ v ∈ st.seen ∨ v ∈ nm :: news1
            rw [List.mem_cons, List.mem_cons]
            tauto
          · rw [List.nodup_cons]
            refine ⟨?_, hf.news_nodup⟩
            intro hmem
            have := (hf.news_spec nm hmem).1
            exact this (by show nm ∈ nm :: st.seen; exact List.mem_cons_self _ _)
          · intro n hn
            rcases List.mem_cons.mp hn with h | h
            · subst h
              exact ⟨hseen, ⟨raw, List.mem_cons_self _ _, rfl⟩, hname, hpass⟩
            · obtain ⟨h1, ⟨r, hr, hr2⟩, h3, h4⟩ := hf.news_spec n h
              refine ⟨?_, ⟨r, List.mem_cons_of_mem _ hr, hr2⟩, h3, h4⟩
              intro hmem
              exact h1 (by show n ∈ nm :: st.seen; exact List.mem_cons_of_mem _ hmem)
          · intro r hr hne hp
            rcases List.mem_cons.mp hr with h | h
            · subst h
              refine ⟨Or.inr (List.mem_cons_self _ _), ?_⟩
              exact hf.adj_mono _ _ (mem_adjGet_adjAdd_iff.mpr (Or.inr ⟨rfl, rfl⟩))
            · obtain ⟨hs, hadj⟩ := hf.deps_spec r h hne hp
              refine ⟨?_, hadj⟩
              rcases hs with hs | hs
              · rcases List.mem_cons.mp hs with h2 | h2
                · exact Or.inr (h2 ▸ List.mem_cons_self _ _)
                · exact Or.inl h2
              · exact Or.inr (List.mem_cons_of_mem _ hs)
          · intro u w hw
            rcases hf.adj_elim u w hw with h | ⟨hu, r, hr, hspec⟩
            · rcases mem_adjGet_adjAdd_iff.mp h with h2 | ⟨hu2, hw2⟩
              · exact Or.inl h2
              · exact Or.inr ⟨hu2, raw, List.mem_cons_self _ _, hw2, hw2 ▸ hname, hw2 ▸ hpass⟩
            · exact Or.inr ⟨hu, r, List.mem_cons_of_mem _ hr, hspec⟩
          · intro u w hw
            exact hf.adj_mono u w (mem_adjGet_adjAdd_iff.mpr (Or.inl hw))
          · intro u hu
            rcases hf.adj_keys u hu with h | h
            · rcases keys_adjAdd_iff.mp h with h2 | h2
              · exact Or.inr h2
              · exact Or.inl h2
            · exact Or.inr h
      · -- filtered out: nothing happens
        have hpf : passes_filter filt (sanitize_requirement raw) = false := by
          cases h : passes_filter filt (sanitize_requirement raw) with
          | true => exact absurd h hpass
          | false => rfl
        have hstep : processDep filt cur cd st raw = st := by
          simp only [processDep]
          rw [if_neg hname, if_pos (by simp [hpf])]
        rw [hstep]
        obtain ⟨news, hf⟩ := ih st hsk
        refine ⟨news, hf.q_eq, hf.depth_eq, hf.seen_iff, hf.calls_eq, hf.news_nodup, ?_, ?_, ?_,
          hf.adj_mono, hf.adj_keys⟩
        · intro n hn
          obtain ⟨h1, ⟨r, hr, hr2⟩, h3, h4⟩ := hf.news_spec n hn
          exact ⟨h1, ⟨r, List.mem_cons_of_mem _ hr, hr2⟩, h3, h4⟩
        · intro r hr hne hp
          rcases List.mem_cons.mp hr with h | h
          · exact absurd (h ▸ hp) (by simp [hpf])
          · exact hf.deps_spec r h hne hp
        · intro u w hw
          rcases hf.adj_elim u w hw with h | ⟨hu, r, hr, hspec⟩
          · exact Or.inl h
          · exact Or.inr ⟨hu, r, List.mem_cons_of_mem _ hr, hspec⟩

/-! ### Loop-level lemmas -/

theorem bfsLoop_zero (g : List (String × List String)) (maxD : Nat) (filt : Option String)
    (st : BfsState) : bfsLoop g maxD filt 0 st = st := rfl

theorem bfsLoop_succ_nil {g : List (String × List String)} {maxD : Nat} {filt : Option String}
    {fuel : Nat} {st : BfsState} (h : st.q = []) :
    bfsLoop g maxD filt (fuel + 1) st = st := by
  rw [bfsLoop, h]

theorem bfsLoop_succ_cons {g : List (String × List String)} {maxD : Nat} {filt : Option String}
    {fuel : Nat} {st : BfsState} {cur : String} {rest : List String} (h : st.q = cur :: rest) :
    bfsLoop g maxD filt (fuel + 1) st =
      if dictGetD st.depth cur 0 ≥ maxD then
        bfsLoop g maxD filt fuel { st with q := rest }
      else
        bfsLoop g maxD filt fuel
          ((gget g cur).foldl (processDep filt cur (dictGetD st.depth cur 0))
            { st with q := rest, calls := st.calls ++ [cur] }) := by
  rw [bfsLoop, h]

theorem bfsLoop_of_q_nil {g : List (String × List String)} {maxD : Nat} {filt : Option String}
    {st : BfsState} (h : st.q = []) : ∀ fuel, bfsLoop g maxD filt fuel st = st := by
  intro fuel
  cases fuel with
  | zero => rfl
  | succ n => exact bfsLoop_succ_nil h

theorem bfsLoop_add (g : List (String × List String)) (maxD : Nat) (filt : Option String) :
    ∀ (k j : Nat) (st : BfsState),
      bfsLoop g maxD filt (k + j) st = bfsLoop g maxD filt j (bfsLoop g maxD filt k st) := by
  intro k
  induction k with
  | zero => intro j st; rw [Nat.zero_add, bfsLoop_zero]
  | succ k ih =>
    intro j st
    have hkj : k + 1 + j = (k + j) + 1 := by omega
    rw [hkj]
    cases hq : st.q with
    | nil =>
      rw [bfsLoop_succ_nil hq, bfsLoop_succ_nil hq, bfsLoop_of_q_nil hq]
    | cons cur rest =>
      rw [bfsLoop_succ_cons hq, bfsLoop_succ_cons hq]
      by_cases hd : dictGetD st.depth cur 0 ≥ maxD
      · rw [if_pos hd, if_pos hd, ih]
      · rw [if_neg hd, if_neg hd, ih]

/-- `SeenKeys` survives one dependency-processing pass. -/
theorem seenKeys_foldl {filt : Option String} {cur : String} {cd : Nat}
    {deps : List String} {st : BfsState} (hsk : SeenKeys st) :
    SeenKeys (deps.foldl (processDep filt cur cd) st) := by
  obtain ⟨news, hf⟩ := foldChar filt cur cd deps st hsk
  intro v
  rw [hf.seen_iff v, hf.depth_eq]
  rw [List.map_append, List.mem_append]
  constructor
  · rintro (h | h)
    · exact Or.inl ((hsk v).mp h)
    · refine Or.inr ?_
      exact List.mem_map.mpr ⟨(v, cd + 1), List.mem_map.mpr ⟨v, h, rfl⟩, rfl⟩
  · rintro (h | h)
    · exact Or.inl ((hsk v).mpr h)
    · refine Or.inr ?_
      obtain ⟨p, hp, hpv⟩ := List.mem_map.mp h
      obtain ⟨n, hn, hnp⟩ := List.mem_map.mp hp
      rw [← hpv, ← hnp]
      exact hn

/-- Along the whole loop the visited/keys coincidence is kept and the depth dict only
ever grows by appending: entries, hence first-assigned depths, are never overwritten. -/
theorem bfsLoop_extend (g : List (String × List String)) (maxD : Nat) (filt : Option String) :
    ∀ (fuel : Nat) (st : BfsState), SeenKeys st →
      SeenKeys (bfsLoop g maxD filt fuel st) ∧
      ∃ ext, (bfsLoop g maxD filt fuel st).depth = st.depth ++ ext := by
  intro fuel
  induction fuel with
  | zero => intro st hsk; exact ⟨hsk, [], by rw [bfsLoop_zero]; simp⟩
  | succ n ih =>
    intro st hsk
    cases hq : st.q with
    | nil => rw [bfsLoop_succ_nil hq]; exact ⟨hsk, [], by simp⟩
    | cons cur rest =>
      rw [bfsLoop_succ_cons hq]
      by_cases hd : dictGetD st.depth cur 0 ≥ maxD
      · rw [if_pos hd]
        have hsk1 : SeenKeys { st with q := rest } := hsk
        exact ih _ hsk1
      · rw [if_neg hd]
        set st1 : BfsState := { st with q := rest, calls := st.calls ++ [cur] }
        have hsk1 : SeenKeys st1 := hsk
        obtain ⟨news, hf⟩ := foldChar filt cur (dictGetD st.depth cur 0) (gget g cur) st1 hsk1
        have hsk2 := @seenKeys_foldl filt cur (dictGetD st.depth cur 0) (gget g cur) st1 hsk1
        obtain ⟨hsk3, ext, hext⟩ := ih _ hsk2
        refine ⟨hsk3, news.map (fun n => (n, dictGetD st.depth cur 0 + 1)) ++ ext, ?_⟩
        rw [hext, hf.depth_eq]
        show (st.depth ++ _) ++ ext = _
        rw [List.append_assoc]

/-! ### The queue always drains within the fixed fuel -/

theorem gget_sub_flatten {g : List (String × List String)} {u v : String}
    (h : v ∈ gget g u) : v ∈ (g.map Prod.snd).flatten := by
  rw [gget] at h
  cases hl : List.lookup u g with
  | none => rw [hl] at h; simp at h
  | some l =>
    rw [hl] at h
    simp only [Option.getD_some] at h
    exact List.mem_flatten.mpr ⟨l, List.mem_map.mpr ⟨(u, l), mem_of_lookup_eq_some hl, rfl⟩, h⟩

theorem bfsLoop_drains (g : List (String × List String)) (maxD : Nat) (filt : Option String)
    (U : List String)
    (hU : ∀ u raw, raw ∈ gget g u → sanitize_requirement raw ∈ U) :
    ∀ (fuel : Nat) (st : BfsState), SeenKeys st → (∀ v ∈ st.seen, v ∈ U) →
      bfsMeasure U st ≤ fuel → (bfsLoop g maxD filt fuel st).q = [] := by
  intro fuel
  induction fuel with
  | zero =>
    intro st _ _ hm
    rw [bfsLoop_zero]
    rw [bfsMeasure] at hm
    have : st.q.length = 0 := by omega
    exact List.length_eq_zero.mp this
  | succ n ih =>
    intro st hsk hsU hm
    cases hq : st.q with
    | nil => rw [bfsLoop_succ_nil hq]; exact hq
    | cons cur rest =>
      rw [bfsLoop_succ_cons hq]
      by_cases hd : dictGetD st.depth cur 0 ≥ maxD
      · rw [if_pos hd]
        refine ih { st with q := rest } hsk hsU ?_
        rw [bfsMeasure] at hm ⊢
        rw [hq] at hm
        simp only [List.length_cons] at hm
        simpa using Nat.le_of_succ_le_succ (by omega)
      · rw [if_neg hd]
        set cd := dictGetD st.depth cur 0
        set st1 : BfsState := { st with q := rest, calls := st.calls ++ [cur] }
        have hsk1 : SeenKeys st1 := hsk
        obtain ⟨news, hf⟩ := foldChar filt cur cd (gget g cur) st1 hsk1
        set st2 := (gget g cur).foldl (processDep filt cur cd) st1
        have hnewsU : ∀ x ∈ news, x ∈ U := by
          intro x hx
          obtain ⟨-, ⟨raw, hraw, hxr⟩, -, -⟩ := hf.news_spec x hx
          exact hxr ▸ hU cur raw hraw
        have hnewsFresh : ∀ x ∈ news, x ∉ st.seen := by
          intro x hx
          exact (hf.news_spec x hx).1
        have hseen2 : st2.seen.toFinset = st.seen.toFinset ∪ news.toFinset := by
          apply Finset.ext
          intro x
          rw [List.mem_toFinset, Finset.mem_union, List.mem_toFinset, List.mem_toFinset]
          exact hf.seen_iff x
        have hsU2 : ∀ v ∈ st2.seen, v ∈ U := by
          intro v hv
          rcases (hf.seen_iff v).mp hv with h | h
          · exact hsU v h
          · exact hnewsU v h
        have hsub : news.toFinset ⊆ U.toFinset \ st.seen.toFinset := by
          intro x hx
          rw [List.mem_toFinset] at hx
          rw [Finset.mem_sdiff, List.mem_toFinset, List.mem_toFinset]
          exact ⟨hnewsU x hx, hnewsFresh x hx⟩
        have hsplit : U.toFinset \ st2.seen.toFinset =
            (U.toFinset \ st.seen.toFinset) \ news.toFinset := by
          rw [hseen2]
          apply Finset.ext
          intro x
          simp only [Finset.mem_sdiff, Finset.mem_union]
          tauto
        have hcard : (U.toFinset \ st2.seen.toFinset).card =
            (U.toFinset \ st.seen.toFinset).card - news.toFinset.card := by
          rw [hsplit]
          exact Finset.card_sdiff hsub
        have hcardle : news.toFinset.card ≤ (U.toFinset \ st.seen.toFinset).card :=
          Finset.card_le_card hsub
        have hnlen : news.toFinset.card = news.length :=
          List.toFinset_card_of_nodup hf.news_nodup
        have hq2 : st2.q.length = rest.length + news.length := by
          rw [hf.q_eq]
          show (rest ++ news).length = _
          simp
        refine ih st2 (seenKeys_foldl hsk1) hsU2 ?_
        rw [bfsMeasure] at hm ⊢
        rw [hq] at hm
        simp only [List.length_cons] at hm
        rw [hcard, hnlen, hq2]
        omega

/-- The `while q:` loop of any `build_bfs` invocation genuinely finishes: with the fuel
`bfsFuel` the queue is drained, so the fuel-indexed model computes the same final state
as Python's unbounded loop. -/
theorem bfsFinal_q_nil (g : List (String × List String)) (maxD : Nat) (filt : Option String)
    (adj0 : List (String × List String)) (root : String) :
    (bfsFinal g maxD filt adj0 root).q = [] := by
  rw [bfsFinal]
  set r := pyStrip root
  set U : List String := r :: (g.map Prod.snd).flatten.map sanitize_requirement with hUdef
  have hU : ∀ u raw, raw ∈ gget g u → sanitize_requirement raw ∈ U := by
    intro u raw hraw
    exact List.mem_cons_of_mem _ (List.mem_map.mpr ⟨raw, gget_sub_flatten hraw, rfl⟩)
  refine bfsLoop_drains g maxD filt U hU _ _ ?_ ?_ ?_
  · intro v
    show v ∈ [r] ↔ v ∈ [(r, 0)].map Prod.fst
    simp
  · intro v hv
    have : v = r := by simpa [bfsInit] using hv
    rw [this]
    exact List.mem_cons_self _ _
  · show bfsMeasure U (bfsInit adj0 r) ≤ bfsFuel g r
    rw [bfsMeasure, bfsFuel]
    have hrU : r ∈ U.toFinset := List.mem_toFinset.mpr (List.mem_cons_self _ _)
    have hseenInit : (bfsInit adj0 r).seen.toFinset = {r} := by
      apply Finset.ext
      intro x
      show x ∈ ([r] : List String).toFinset ↔ x ∈ ({r} : Finset String)
      simp
    rw [hseenInit]
    have hsub : ({r} : Finset String) ⊆ U.toFinset := by
      intro x hx
      rw [Finset.mem_singleton] at hx
      rw [hx]
      exact hrU
    have hcard : (U.toFinset \ {r}).card = U.toFinset.card - 1 := by
      rw [Finset.card_sdiff hsub, Finset.card_singleton]
    have h1 : 1 ≤ U.toFinset.card := Finset.card_pos.mpr ⟨r, hrU⟩
    have h2 : U.toFinset.card ≤ U.length := U.toFinset_card_le
    show (U.toFinset \ {r}).card + ([r] : List String).length ≤ U.length
    rw [hcard]
    simp only [List.length_singleton]
    omega

/-! ### The adjacency state never influences the traversal -/

theorem processDep_eqExceptAdj {filt : Option String} {cur : String} {cd : Nat}
    {s t : BfsState} (h : EqExceptAdj s t) (raw : String) :
    EqExceptAdj (processDep filt cur cd s raw) (processDep filt cur cd t raw) := by
  obtain ⟨hq, hd, hs, hc⟩ := h
  rw [processDep_eq, processDep_eq]
  by_cases h1 : sanitize_requirement raw = ""
  · rw [if_pos h1, if_pos h1]; exact ⟨hq, hd, hs, hc⟩
  · rw [if_neg h1, if_neg h1]
    by_cases h2 : passes_filter filt (sanitize_requirement raw) = false
    · rw [if_pos h2, if_pos h2]; exact ⟨hq, hd, hs, hc⟩
    · rw [if_neg h2, if_neg h2]
      by_cases h3 : s.seen.contains (sanitize_requirement raw) = true
      · rw [if_pos h3, if_pos (hs ▸ h3)]
        exact ⟨hq, by simp only [hd], hs, hc⟩
      · rw [if_neg h3, if_neg (hs ▸ h3)]
        exact ⟨by simp only [hq], by simp only [hd], by simp only [hs], hc⟩

theorem foldl_eqExceptAdj {filt : Option String} {cur : String} {cd : Nat} :
    ∀ (deps : List String) {s t : BfsState}, EqExceptAdj s t →
      EqExceptAdj (deps.foldl (processDep filt cur cd) s)
        (deps.foldl (processDep filt cur cd) t) := by
  intro deps
  induction deps with
  | nil => intro s t h; exact h
  | cons raw rest ih =>
    intro s t h
    rw [List.foldl_cons, List.foldl_cons]
    exact ih (processDep_eqExceptAdj h raw)

theorem bfsLoop_eqExceptAdj (g : List (String × List String)) (maxD : Nat)
    (filt : Option String) :
    ∀ (fuel : Nat) (s t : BfsState), EqExceptAdj s t →
      EqExceptAdj (bfsLoop g maxD filt fuel s) (bfsLoop g maxD filt fuel t) := by
  intro fuel
  induction fuel with
  | zero => intro s t h; exact h
  | succ n ih =>
    intro s t h
    obtain ⟨hq, hd, hs, hc⟩ := h
    cases hqs : s.q with
    | nil =>
      rw [bfsLoop_succ_nil hqs, bfsLoop_succ_nil (hq ▸ hqs)]
      exact ⟨hq, hd, hs, hc⟩
    | cons cur rest =>
      rw [bfsLoop_succ_cons hqs, bfsLoop_succ_cons (hq ▸ hqs)]
      rw [← hd]
      by_cases hdep : dictGetD s.depth cur 0 ≥ maxD
      · rw [if_pos hdep, if_pos hdep]
        exact ih _ _ ⟨rfl, rfl, hs, hc⟩
      · rw [if_neg hdep, if_neg hdep]
        refine ih _ _ (foldl_eqExceptAdj _ ?_)
        exact ⟨rfl, rfl, hs, by rw [hc]⟩

/-- The depth map returned by `build_bfs` does not depend on the adjacency contents the
instance accumulated before the call: BFS only ever writes to `self.adj`. -/
theorem build_bfs_depth_irrel (g : List (String × List String)) (maxD : Nat)
    (filt : Option String) (adj0 : List (String × List String)) (root : String) :
    (build_bfs g maxD filt adj0 root).2 = (build_bfs g maxD filt [] root).2 := by
  rw [build_bfs, build_bfs]
  by_cases hp : passes_filter filt (pyStrip root) = false
  · rw [if_pos hp, if_pos hp]
  · rw [if_neg hp, if_neg hp]
    show (bfsFinal g maxD filt adj0 root).depth = (bfsFinal g maxD filt [] root).depth
    rw [bfsFinal, bfsFinal]
    exact (bfsLoop_eqExceptAdj g maxD filt (bfsFuel g (pyStrip root))
      (bfsInit adj0 (pyStrip root)) (bfsInit [] (pyStrip root)) ⟨rfl, rfl, rfl, rfl⟩).2.1

/-- Edges already present in `self.adj` survive the whole loop. -/
theorem bfsLoop_adj_mono (g : List (String × List String)) (maxD : Nat)
    (filt : Option String) :
    ∀ (fuel : Nat) (st : BfsState), SeenKeys st → ∀ u w, w ∈ adjGet st.adj u →
      w ∈ adjGet (bfsLoop g maxD filt fuel st).adj u := by
  intro fuel
  induction fuel with
  | zero => intro st _ u w h; exact h
  | succ n ih =>
    intro st hsk u w h
    cases hq : st.q with
    | nil => rw [bfsLoop_succ_nil hq]; exact h
    | cons cur rest =>
      rw [bfsLoop_succ_cons hq]
      by_cases hd : dictGetD st.depth cur 0 ≥ maxD
      · rw [if_pos hd]
        exact ih { st with q := rest } hsk u w h
      · rw [if_neg hd]
        set st1 : BfsState := { st with q := rest, calls := st.calls ++ [cur] }
        have hsk1 : SeenKeys st1 := hsk
        obtain ⟨news, hf⟩ := foldChar filt cur (dictGetD st.depth cur 0) (gget g cur) st1 hsk1
        exact ih _ (seenKeys_foldl hsk1) u w (hf.adj_mono u w h)

/-! ### Preservation of the general invariant -/

theorem dictGetD_mem {d : List (String × Nat)} {k : String}
    (h : k ∈ d.map Prod.fst) : (k, dictGetD d k 0) ∈ d := by
  cases hl : List.lookup k d with
  | none => exact absurd h (lookup_none_iff.mp hl)
  | some v =>
    have : dictGetD d k 0 = v := by rw [dictGetD, hl]; rfl
    rw [this]
    exact mem_of_lookup_eq_some hl

theorem GInv_fold {g : List (String × List String)} {maxD : Nat} {filt : Option String}
    {root' cur : String} {rest : List String} {st : BfsState}
    (hg : GInv maxD filt root' st) (hq : st.q = cur :: rest)
    (hlt : dictGetD st.depth cur 0 < maxD) :
    GInv maxD filt root'
      ((gget g cur).foldl (processDep filt cur (dictGetD st.depth cur 0))
        { st with q := rest, calls := st.calls ++ [cur] }) := by
  set cd := dictGetD st.depth cur 0 with hcd
  set st1 : BfsState := { st with q := rest, calls := st.calls ++ [cur] }
  have hsk1 : SeenKeys st1 := hg.sk
  obtain ⟨news, hf⟩ := foldChar filt cur cd (gget g cur) st1 hsk1
  set st2 := (gget g cur).foldl (processDep filt cur cd) st1
  have hcurk : cur ∈ st.depth.map Prod.fst := hg.q_sub cur (hq ▸ List.mem_cons_self _ _)
  have hcurd : (cur, cd) ∈ st.depth := dictGetD_mem hcurk
  have hkeys2 : st2.depth.map Prod.fst = st.depth.map Prod.fst ++ news := by
    rw [hf.depth_eq]
    show (st.depth ++ news.map (fun n => (n, cd + 1))).map Prod.fst = _
    rw [List.map_append, List.map_map]
    have hid : (Prod.fst ∘ fun n : String => (n, cd + 1)) = id := rfl
    rw [hid, List.map_id]
  have hnews_not_old : ∀ n ∈ news, n ∉ st.depth.map Prod.fst := by
    intro n hn hmem
    exact (hf.news_spec n hn).1 ((hg.sk n).mpr hmem)
  have hdepth2 : st2.depth = st.depth ++ news.map (fun n => (n, cd + 1)) := hf.depth_eq
  refine ⟨seenKeys_foldl hsk1, ?_, ?_, ?_, ?_, ?_, ?_, ?_, ?_⟩
  · -- keys nodup
    rw [hkeys2, List.nodup_append]
    exact ⟨hg.keys_nodup, hf.news_nodup, fun x hx hx2 => hnews_not_old x hx2 hx⟩
  · -- q_sub
    intro v hv
    rw [hf.q_eq] at hv
    rcases List.mem_append.mp hv with h | h
    · rw [hkeys2, List.mem_append]
      exact Or.inl (hg.q_sub v (hq ▸ List.mem_cons_of_mem _ h))
    · rw [hkeys2, List.mem_append]
      exact Or.inr h
  · -- pass
    intro v hv
    rw [hkeys2] at hv
    rcases List.mem_append.mp hv with h | h
    · exact hg.pass v h
    · exact (hf.news_spec v h).2.2.2
  · -- vals_le
    intro p hp
    rw [hdepth2] at hp
    rcases List.mem_append.mp hp with h | h
    · exact hg.vals_le p h
    · obtain ⟨n, hn, hpn⟩ := List.mem_map.mp h
      rw [← hpn]
      exact hlt
  · -- root0
    rw [hdepth2]
    exact List.mem_append.mpr (Or.inl hg.root0)
  · -- adjk_lt
    intro u hu
    rcases hf.adj_keys u hu with h | h
    · obtain ⟨n, hn, hnlt⟩ := hg.adjk_lt u h
      exact ⟨n, hdepth2 ▸ List.mem_append.mpr (Or.inl hn), hnlt⟩
    · exact ⟨cd, hdepth2 ▸ List.mem_append.mpr (Or.inl (h ▸ hcurd)), hlt⟩
  · -- adjm
    intro u w hw
    rcases hf.adj_elim u w hw with h | ⟨hu, raw, hraw, hwr, hne, hp⟩
    · rw [hkeys2, List.mem_append]
      exact Or.inl (hg.adjm u w h)
    · have := hf.deps_spec raw hraw (hwr ▸ hne) (hwr ▸ hp)
      rw [hkeys2, List.mem_append]
      rcases this.1 with h2 | h2
      · rw [hwr]
        exact Or.inl ((hg.sk _).mp h2)
      · rw [hwr]
        exact Or.inr h2
  · -- calls_ok
    intro u hu
    rw [hf.calls_eq] at hu
    rcases List.mem_append.mp hu with h | h
    · obtain ⟨n, hn, hnlt⟩ := hg.calls_ok u h
      exact ⟨n, hdepth2 ▸ List.mem_append.mpr (Or.inl hn), hnlt⟩
    · have : u = cur := by simpa using h
      exact ⟨cd, hdepth2 ▸ List.mem_append.mpr (Or.inl (this ▸ hcurd)), hlt⟩

theorem GInv_loop (g : List (String × List String)) (maxD : Nat) (filt : Option String)
    (root' : String) :
    ∀ (fuel : Nat) (st : BfsState), GInv maxD filt root' st →
      GInv maxD filt root' (bfsLoop g maxD filt fuel st) := by
  intro fuel
  induction fuel with
  | zero => intro st hg; exact hg
  | succ n ih =>
    intro st hg
    cases hq : st.q with
    | nil => rw [bfsLoop_succ_nil hq]; exact hg
    | cons cur rest =>
      rw [bfsLoop_succ_cons hq]
      by_cases hd : dictGetD st.depth cur 0 ≥ maxD
      · rw [if_pos hd]
        refine ih _ ⟨hg.sk, hg.keys_nodup, ?_, hg.pass, hg.vals_le, hg.root0,
          hg.adjk_lt, hg.adjm, hg.calls_ok⟩
        intro v hv
        exact hg.q_sub v (hq ▸ List.mem_cons_of_mem _ hv)
      · rw [if_neg hd]
        exact ih _ (GInv_fold hg hq (Nat.lt_of_not_le hd))

/-- The general invariant holds of the final state of any `build_bfs` run on a fresh
instance whose (stripped) root passes the filter. -/
theorem GInv_bfsFinal (g : List (String × List String)) (maxD : Nat) (filt : Option String)
    (root : String) (hp : passes_filter filt (pyStrip root) = true) :
    GInv maxD filt (pyStrip root) (bfsFinal g maxD filt [] root) := by
  rw [bfsFinal]
  apply GInv_loop
  refine ⟨?_, ?_, ?_, ?_, ?_, ?_, ?_, ?_, ?_⟩
  · intro v
    show v ∈ [pyStrip root] ↔ v ∈ [(pyStrip root, 0)].map Prod.fst
    simp
  · show ([(pyStrip root, 0)].map Prod.fst).Nodup
    simp
  · intro v hv
    exact hv
  · intro v hv
    have : v = pyStrip root := by simpa [bfsInit] using hv
    rw [this]
    exact hp
  · intro p hp2
    have : p = (pyStrip root, 0) := by simpa [bfsInit] using hp2
    rw [this]
    exact Nat.zero_le _
  · exact List.mem_singleton.mpr rfl
  · intro u hu
    simp [bfsInit] at hu
  · intro u w hw
    have hw2 : w ∈ adjGet ([] : List (String × List String)) u := hw
    have : adjGet ([] : List (String × List String)) u = [] := rfl
    rw [this] at hw2
    simp at hw2
  · intro u hu
    simp [bfsInit] at hu

/-! ### The clean-run invariant: BFS visits in distance order -/

theorem passes_filter_none {v : String} (h : v ≠ "") : passes_filter none v = true := by
  rw [passes_filter, if_neg h]

theorem cleanGraph_gget {g : List (String × List String)} (HG : CleanGraph g)
    {u v : String} (h : v ∈ gget g u) : sanitize_requirement v = v ∧ v ≠ "" := by
  rw [gget] at h
  cases hl : List.lookup u g with
  | none => rw [hl] at h; simp at h
  | some l =>
    rw [hl] at h
    simp only [Option.getD_some] at h
    exact HG (u, l) (mem_of_lookup_eq_some hl) v h

theorem dictGetD_append_left {d ext : List (String × Nat)} {k : String}
    (h : k ∈ d.map Prod.fst) : dictGetD (d ++ ext) k 0 = dictGetD d k 0 := by
  cases hl : List.lookup k d with
  | none => exact absurd h (lookup_none_iff.mp hl)
  | some v => rw [dictGetD, dictGetD, hl, lookup_append_some hl]

theorem dictGetD_append_news {d : List (String × Nat)} {news : List String} {k : String}
    {c : Nat} (hmem : k ∈ news) (hfresh : k ∉ d.map Prod.fst) :
    dictGetD (d ++ news.map (fun n => (n, c))) k 0 = c := by
  rw [dictGetD, lookup_append_none (lookup_none_iff.mpr hfresh), lookup_constMap_of_mem hmem]
  rfl

theorem pairwise_le_map_const {c : Nat} {f : String → Nat} :
    ∀ (l : List String), (∀ x ∈ l, f x = c) → List.Pairwise (· ≤ ·) (l.map f) := by
  intro l
  induction l with
  | nil => intro _; exact List.Pairwise.nil
  | cons x xs ih =>
    intro h
    rw [List.map_cons]
    refine List.Pairwise.cons ?_ (ih fun y hy => h y (List.mem_cons_of_mem _ hy))
    intro m hm
    obtain ⟨y, hy, hym⟩ := List.mem_map.mp hm
    rw [← hym, h y (List.mem_cons_of_mem _ hy), h x (List.mem_cons_self _ _)]

theorem CInv_skip {g : List (String × List String)} {maxD : Nat} {root' cur : String}
    {rest : List String} {st : BfsState}
    (hc : CInv g maxD root' st)
    (hq : st.q = cur :: rest) (hge : dictGetD st.depth cur 0 ≥ maxD) :
    CInv g maxD root' { st with q := rest } := by
  have hmono := hc.q_mono
  rw [hq, List.map_cons] at hmono
  have hcurle : ∀ v ∈ rest, dictGetD st.depth cur 0 ≤ dictGetD st.depth v 0 := by
    intro v hv
    exact (List.pairwise_cons.mp hmono).1 _ (List.mem_map.mpr ⟨v, hv, rfl⟩)
  refine ⟨hc.sound, ?_, ?_, ?_, ?_, ?_⟩
  · exact (List.pairwise_cons.mp hmono).2
  · intro c hch p hp
    have hcr : c ∈ rest := by
      cases rest with
      | nil => simp at hch
      | cons a l => exact (by simpa using hch) ▸ List.mem_cons_self _ _
    have h1 : p.2 ≤ dictGetD st.depth cur 0 + 1 :=
      hc.band cur (by rw [hq]; rfl) p hp
    exact Nat.le_trans h1 (Nat.succ_le_succ (hcurle c hcr))
  · exact (List.nodup_cons.mp (hq ▸ hc.q_nodup)).2
  · intro v hv hnq hlt w hw
    by_cases hvc : v = cur
    · exfalso
      have hlt2 : dictGetD st.depth cur 0 < maxD := hvc ▸ hlt
      omega
    · refine hc.complete v hv ?_ hlt w hw
      rw [hq]
      intro hmem
      rcases List.mem_cons.mp hmem with h | h
      · exact hvc h
      · exact hnq h
  · intro v hv hnq hlt w hw
    by_cases hvc : v = cur
    · exfalso
      have hlt2 : dictGetD st.depth cur 0 < maxD := hvc ▸ hlt
      omega
    · refine hc.adj_done v hv ?_ hlt w hw
      rw [hq]
      intro hmem
      rcases List.mem_cons.mp hmem with h | h
      · exact hvc h
      · exact hnq h

theorem foldKeys {filt : Option String} {cur : String} {cd : Nat} {deps : List String}
    {st st' : BfsState} {news : List String} (hf : FoldFacts filt cur cd deps st st' news) :
    st'.depth.map Prod.fst = st.depth.map Prod.fst ++ news := by
  rw [hf.depth_eq, List.map_append, List.map_map]
  have hid : (Prod.fst ∘ fun n : String => (n, cd + 1)) = id := rfl
  rw [hid, List.map_id]

theorem map_congr_mem {α β : Type} {f h : α → β} :
    ∀ {l : List α}, (∀ a ∈ l, f a = h a) → l.map f = l.map h := by
  intro l
  induction l with
  | nil => intro _; rfl
  | cons x xs ih =>
    intro he
    rw [List.map_cons, List.map_cons, he x (List.mem_cons_self _ _),
      ih fun a ha => he a (List.mem_cons_of_mem _ ha)]

theorem CInv_fold {g : List (String × List String)} {maxD : Nat} {root' cur : String}
    {rest : List String} {st : BfsState}
    (HG : CleanGraph g)
    (hg : GInv maxD none root' st) (hc : CInv g maxD root' st)
    (hq : st.q = cur :: rest) (hlt : dictGetD st.depth cur 0 < maxD) :
    CInv g maxD root'
      ((gget g cur).foldl (processDep none cur (dictGetD st.depth cur 0))
        { st with q := rest, calls := st.calls ++ [cur] }) := by
  set cd := dictGetD st.depth cur 0 with hcd
  set st1 : BfsState := { st with q := rest, calls := st.calls ++ [cur] }
  have hsk1 : SeenKeys st1 := hg.sk
  obtain ⟨news, hf⟩ := foldChar none cur cd (gget g cur) st1 hsk1
  set st2 := (gget g cur).foldl (processDep none cur cd) st1
  have hcurk : cur ∈ st.depth.map Prod.fst := hg.q_sub cur (hq ▸ List.mem_cons_self _ _)
  have hcurd : (cur, cd) ∈ st.depth := dictGetD_mem hcurk
  have hclean : ∀ w ∈ gget g cur, sanitize_requirement w = w ∧ w ≠ "" :=
    fun w hw => cleanGraph_gget HG hw
  have hnews_sub : ∀ n ∈ news, n ∈ gget g cur := by
    intro n hn
    obtain ⟨-, ⟨raw, hraw, hn2⟩, -, -⟩ := hf.news_spec n hn
    rw [hn2, (hclean raw hraw).1]
    exact hraw
  have hnews_not_old : ∀ n ∈ news, n ∉ st.depth.map Prod.fst := by
    intro n hn hmem
    exact (hf.news_spec n hn).1 ((hg.sk n).mpr hmem)
  have hdeps_cov : ∀ w ∈ gget g cur,
      (w ∈ st.seen ∨ w ∈ news) ∧ w ∈ adjGet st2.adj cur := by
    intro w hw
    obtain ⟨hsw, hnw⟩ := hclean w hw
    have := hf.deps_spec w hw (by rw [hsw]; exact hnw)
      (by rw [hsw]; exact passes_filter_none hnw)
    rw [hsw] at this
    exact this
  have hkeys2' := foldKeys hf
  have hkeys2 : st2.depth.map Prod.fst = st.depth.map Prod.fst ++ news := hkeys2'
  have hdepth2 : st2.depth = st.depth ++ news.map (fun n => (n, cd + 1)) := hf.depth_eq
  have hq2 : st2.q = rest ++ news := hf.q_eq
  have hstab : ∀ v ∈ st.depth.map Prod.fst,
      dictGetD st2.depth v 0 = dictGetD st.depth v 0 := by
    intro v hv
    rw [hdepth2]
    exact dictGetD_append_left hv
  have hnewsd : ∀ n ∈ news, dictGetD st2.depth n 0 = cd + 1 := by
    intro n hn
    rw [hdepth2]
    exact dictGetD_append_news hn (hnews_not_old n hn)
  have hband_pre : ∀ p ∈ st.depth, p.2 ≤ cd + 1 := by
    intro p hp
    exact hc.band cur (by rw [hq]; rfl) p hp
  have hrest_keys : ∀ v ∈ rest, v ∈ st.depth.map Prod.fst :=
    fun v hv => hg.q_sub v (hq ▸ List.mem_cons_of_mem _ hv)
  have hmono := hc.q_mono
  rw [hq, List.map_cons] at hmono
  have hrest_ge : ∀ v ∈ rest, cd ≤ dictGetD st.depth v 0 := by
    intro v hv
    exact (List.pairwise_cons.mp hmono).1 _ (List.mem_map.mpr ⟨v, hv, rfl⟩)
  have hrest_le : ∀ v ∈ rest, dictGetD st.depth v 0 ≤ cd + 1 := by
    intro v hv
    exact hband_pre _ (dictGetD_mem (hrest_keys v hv))
  have hcd2 : dictGetD st2.depth cur 0 = cd := by
    rw [hstab cur hcurk]
  refine ⟨?_, ?_, ?_, ?_, ?_, ?_⟩
  · -- sound
    intro p hp
    rw [hdepth2] at hp
    rcases List.mem_append.mp hp with h | h
    · exact hc.sound p h
    · obtain ⟨n, hn, hpn⟩ := List.mem_map.mp h
      rw [← hpn]
      exact ReachIn.succ (hc.sound (cur, cd) hcurd) (hnews_sub n hn)
  · -- q_mono
    rw [hq2, List.map_append, List.pairwise_append]
    refine ⟨?_, ?_, ?_⟩
    · have he : rest.map (fun v => dictGetD st2.depth v 0) =
          rest.map (fun v => dictGetD st.depth v 0) :=
        map_congr_mem fun v hv => hstab v (hrest_keys v hv)
      rw [he]
      exact (List.pairwise_cons.mp hmono).2
    · exact pairwise_le_map_const news hnewsd
    · intro a ha b hb
      obtain ⟨v, hv, hva⟩ := List.mem_map.mp ha
      obtain ⟨n, hn, hnb⟩ := List.mem_map.mp hb
      rw [← hva, ← hnb, hstab v (hrest_keys v hv), hnewsd n hn]
      exact hrest_le v hv
  · -- band
    intro c hch p hp
    rw [hdepth2] at hp
    cases hr : rest with
    | nil =>
      have hqn : st2.q = news := by rw [hq2, hr]; rfl
      cases hn : news with
      | nil => rw [hqn, hn] at hch; simp at hch
      | cons n0 ns =>
        have hcn : c = n0 := by
          rw [hqn, hn] at hch
          exact (by simpa using hch : n0 = c).symm
        have hdc : dictGetD st2.depth c 0 = cd + 1 := by
          rw [hcn]
          exact hnewsd n0 (hn ▸ List.mem_cons_self _ _)
        rw [hdc]
        rcases List.mem_append.mp hp with h | h
        · exact Nat.le_succ_of_le (hband_pre p h)
        · obtain ⟨m, hm, hpm⟩ := List.mem_map.mp h
          rw [← hpm]
          omega
    | cons c0 rest' =>
      have hcn : c = c0 := by
        rw [hq2, hr] at hch
        exact (by simpa using hch : c0 = c).symm
      have hc0r : c0 ∈ rest := hr ▸ List.mem_cons_self _ _
      have hdc : dictGetD st2.depth c 0 = dictGetD st.depth c0 0 := by
        rw [hcn]
        exact hstab c0 (hrest_keys c0 hc0r)
      have hge : cd ≤ dictGetD st.depth c0 0 := hrest_ge c0 hc0r
      rw [hdc]
      rcases List.mem_append.mp hp with h | h
      · exact Nat.le_trans (hband_pre p h) (by omega)
      · obtain ⟨m, hm, hpm⟩ := List.mem_map.mp h
        rw [← hpm]
        show cd + 1 ≤ dictGetD st.depth c0 0 + 1
        omega
  · -- q_nodup
    rw [hq2, List.nodup_append]
    refine ⟨(List.nodup_cons.mp (hq ▸ hc.q_nodup)).2, hf.news_nodup, ?_⟩
    intro x hx hx2
    exact (hf.news_spec x hx2).1 ((hg.sk x).mpr (hrest_keys x hx))
  · -- complete
    intro v hv hnq hlt2 w hw
    rw [hkeys2] at hv
    rcases List.mem_append.mp hv with hvk | hvn
    · by_cases hvc : v = cur
      · subst hvc
        rw [hcd2]
        rcases (hdeps_cov w hw).1 with hws | hwn
        · have hwk : w ∈ st.depth.map Prod.fst := (hg.sk w).mp hws
          refine ⟨dictGetD st.depth w 0, ?_, ?_⟩
          · exact hband_pre _ (dictGetD_mem hwk)
          · rw [hdepth2]
            exact List.mem_append.mpr (Or.inl (dictGetD_mem hwk))
        · refine ⟨cd + 1, Nat.le_refl _, ?_⟩
          rw [hdepth2]
          exact List.mem_append.mpr (Or.inr (List.mem_map.mpr ⟨w, hwn, rfl⟩))
      · have hnst : v ∉ st.q := by
          rw [hq]
          intro hmem
          rcases List.mem_cons.mp hmem with h | h
          · exact hvc h
          · exact hnq (hq2 ▸ List.mem_append.mpr (Or.inl h))
        have hlt3 : dictGetD st.depth v 0 < maxD := by
          rw [← hstab v hvk]
          exact hlt2
        obtain ⟨m, hm, hmem⟩ := hc.complete v hvk hnst hlt3 w hw
        refine ⟨m, ?_, hdepth2 ▸ List.mem_append.mpr (Or.inl hmem)⟩
        rw [hstab v hvk]
        exact hm
    · exact absurd (hq2 ▸ List.mem_append.mpr (Or.inr hvn)) hnq
  · -- adj_done
    intro v hv hnq hlt2 w hw
    rw [hkeys2] at hv
    rcases List.mem_append.mp hv with hvk | hvn
    · by_cases hvc : v = cur
      · subst hvc
        exact (hdeps_cov w hw).2
      · have hnst : v ∉ st.q := by
          rw [hq]
          intro hmem
          rcases List.mem_cons.mp hmem with h | h
          · exact hvc h
          · exact hnq (hq2 ▸ List.mem_append.mpr (Or.inl h))
        have hlt3 : dictGetD st.depth v 0 < maxD := by
          rw [← hstab v hvk]
          exact hlt2
        exact hf.adj_mono v w (hc.adj_done v hvk hnst hlt3 w hw)
    · exact absurd (hq2 ▸ List.mem_append.mpr (Or.inr hvn)) hnq

/-! ### Structural facts about the sanitizer -/

theorem bracketSplit_sublist : ∀ l r, bracketSplit l = some r → List.Sublist r l := by
  intro l
  induction l with
  | nil => intro r h; simp [bracketSplit] at h
  | cons c rest ih =>
    intro r h
    simp only [bracketSplit] at h
    by_cases hc : c = ']'
    · rw [if_pos hc] at h
      have : rest = r := by simpa using h
      rw [← this]
      exact List.sublist_cons_self _ _
    · rw [if_neg hc] at h
      by_cases hn : c = '\n'
      · rw [if_pos hn] at h; simp at h
      · rw [if_neg hn] at h
        exact (ih r h).trans (List.sublist_cons_self _ _)

theorem removeBracketsAux_sublist : ∀ (fuel : Nat) (l : List Char),
    List.Sublist (removeBracketsAux fuel l) l := by
  intro fuel
  induction fuel with
  | zero => intro l; exact List.Sublist.refl l
  | succ n ih =>
    intro l
    cases l with
    | nil => exact List.Sublist.refl _
    | cons c rest =>
      rw [removeBracketsAux]
      by_cases hc : c = '['
      · rw [if_pos hc]
        cases hb : bracketSplit rest with
        | some r =>
          have h1 := (ih r).trans (bracketSplit_sublist rest r hb)
          exact h1.trans (List.sublist_cons_self _ _)
        | none =>
          exact (ih rest).cons₂ c
      · rw [if_neg hc]
        exact (ih rest).cons₂ c

theorem stripChars_sublist (l : List Char) : List.Sublist (stripChars l) l := by
  rw [stripChars]
  have h1 : List.Sublist (l.dropWhile isPySpace) l := List.dropWhile_sublist _
  have h2 : List.Sublist ((l.dropWhile isPySpace).reverse.dropWhile isPySpace)
      (l.dropWhile isPySpace).reverse := List.dropWhile_sublist _
  have h3 := List.reverse_sublist.mpr h2
  rw [List.reverse_reverse] at h3
  exact h3.trans h1

/-- The sanitizer only ever deletes characters: its output is a subsequence of its
input. -/
theorem sanitize_sublist (req : String) :
    List.Sublist (sanitize_requirement req).data req.data := by
  rw [sanitize_requirement]
  by_cases h : req = ""
  · rw [if_pos h]
  · rw [if_neg h]
    show List.Sublist (String.mk _).data req.data
    have h1 : List.Sublist (splitSemi req.data) req.data := List.takeWhile_sublist _
    have h2 := stripChars_sublist (splitSemi req.data)
    have h3 := removeBracketsAux_sublist (stripChars (splitSemi req.data)).length
      (stripChars (splitSemi req.data))
    have h4 : List.Sublist
        ((removeBrackets (stripChars (splitSemi req.data))).takeWhile (fun c => !isSplitChar c))
        (removeBrackets (stripChars (splitSemi req.data))) := List.takeWhile_sublist _
    exact ((h4.trans h3).trans h2).trans h1

/-- No whitespace, `(`, `<`, `>`, `=` or `!` survives sanitization. -/
theorem sanitize_no_split (req : String) :
    ∀ c ∈ (sanitize_requirement req).data, isSplitChar c = false := by
  rw [sanitize_requirement]
  by_cases h : req = ""
  · rw [if_pos h, h]
    intro c hc
    simp at hc
  · rw [if_neg h]
    intro c hc
    have := List.mem_takeWhile_imp hc
    simpa using this

theorem dropWhile_eq_self_of_none {p : Char → Bool} {l : List Char}
    (h : ∀ a ∈ l, p a = false) : l.dropWhile p = l := by
  cases l with
  | nil => rfl
  | cons x xs =>
    rw [List.dropWhile_cons, h x (List.mem_cons_self _ _)]
    simp

/-- A string the sanitizer leaves unchanged is also unchanged by `strip()`. -/
theorem sanitize_id_strip {s : String} (h : sanitize_requirement s = s) : pyStrip s = s := by
  by_cases hs : s = ""
  · rw [hs]
    rfl
  · have hnosplit : ∀ c ∈ s.data, isSplitChar c = false := by
      intro c hc
      have hc2 : c ∈ (sanitize_requirement s).data := by rw [h]; exact hc
      exact sanitize_no_split s c hc2
    have hnospace : ∀ c ∈ s.data, isPySpace c = false := by
      intro c hc
      have := hnosplit c hc
      rw [isSplitChar] at this
      cases hps : isPySpace c with
      | true => rw [hps] at this; simp at this
      | false => rfl
    have hfin : pyStrip s = String.mk s.data := by
      rw [pyStrip, stripChars, dropWhile_eq_self_of_none hnospace,
        dropWhile_eq_self_of_none (fun a ha => hnospace a (List.mem_reverse.mp ha)),
        List.reverse_reverse]
    rw [hfin]

/-! ### Clean-run invariants through the loop and final-state correctness -/

theorem CleanInv_loop (g : List (String × List String)) (maxD : Nat) (root' : String)
    (HG : CleanGraph g) :
    ∀ (fuel : Nat) (st : BfsState), GInv maxD none root' st → CInv g maxD root' st →
      GInv maxD none root' (bfsLoop g maxD none fuel st) ∧
      CInv g maxD root' (bfsLoop g maxD none fuel st) := by
  intro fuel
  induction fuel with
  | zero => intro st hg hc; exact ⟨hg, hc⟩
  | succ n ih =>
    intro st hg hc
    cases hq : st.q with
    | nil => rw [bfsLoop_succ_nil hq]; exact ⟨hg, hc⟩
    | cons cur rest =>
      rw [bfsLoop_succ_cons hq]
      by_cases hd : dictGetD st.depth cur 0 ≥ maxD
      · rw [if_pos hd]
        refine ih _ ⟨hg.sk, hg.keys_nodup, ?_, hg.pass, hg.vals_le, hg.root0,
          hg.adjk_lt, hg.adjm, hg.calls_ok⟩ (CInv_skip hc hq hd)
        intro v hv
        exact hg.q_sub v (hq ▸ List.mem_cons_of_mem _ hv)
      · rw [if_neg hd]
        exact ih _ (GInv_fold hg hq (Nat.lt_of_not_le hd))
          (CInv_fold HG hg hc hq (Nat.lt_of_not_le hd))

theorem GInv_init (maxD : Nat) (filt : Option String) (root' : String)
    (hp : passes_filter filt root' = true) : GInv maxD filt root' (bfsInit [] root') := by
  refine ⟨?_, ?_, ?_, ?_, ?_, ?_, ?_, ?_, ?_⟩
  · intro v
    show v ∈ [root'] ↔ v ∈ [(root', 0)].map Prod.fst
    simp
  · show ([(root', 0)].map Prod.fst).Nodup
    simp
  · intro v hv
    exact hv
  · intro v hv
    have : v = root' := by simpa [bfsInit] using hv
    rw [this]
    exact hp
  · intro p hp2
    have : p = (root', 0) := by simpa [bfsInit] using hp2
    rw [this]
    exact Nat.zero_le _
  · exact List.mem_singleton.mpr rfl
  · intro u hu
    simp [bfsInit] at hu
  · intro u w hw
    have hw2 : w ∈ adjGet ([] : List (String × List String)) u := hw
    have : adjGet ([] : List (String × List String)) u = [] := rfl
    rw [this] at hw2
    simp at hw2
  · intro u hu
    simp [bfsInit] at hu

theorem CInv_init (g : List (String × List String)) (maxD : Nat) (root' : String) :
    CInv g maxD root' (bfsInit [] root') := by
  refine ⟨?_, ?_, ?_, ?_, ?_, ?_⟩
  · intro p hp
    have : p = (root', 0) := by simpa [bfsInit] using hp
    rw [this]
    exact ReachIn.zero
  · show List.Pairwise _ ([root'].map _)
    simp
  · intro c hch p hp
    have : p = (root', 0) := by simpa [bfsInit] using hp
    rw [this]
    exact Nat.zero_le _
  · show ([root'] : List String).Nodup
    simp
  · intro v hv hnq hlt w hw
    exfalso
    have : v = root' := by simpa [bfsInit] using hv
    exact hnq (by rw [this]; exact List.mem_singleton.mpr rfl)
  · intro v hv hnq hlt w hw
    exfalso
    have : v = root' := by simpa [bfsInit] using hv
    exact hnq (by rw [this]; exact List.mem_singleton.mpr rfl)

/-- Final-state package for a clean run: the general invariant, the clean invariant and
an empty queue at `bfsFinal`. -/
theorem cleanFinal (g : List (String × List String)) (maxD : Nat) (root : String)
    (HG : CleanGraph g) (hroot : sanitize_requirement root = root) (hne : root ≠ "") :
    GInv maxD none root (bfsFinal g maxD none [] root) ∧
      CInv g maxD root (bfsFinal g maxD none [] root) ∧
      (bfsFinal g maxD none [] root).q = [] := by
  have hstrip : pyStrip root = root := sanitize_id_strip hroot
  have hq := bfsFinal_q_nil g maxD none [] root
  have hg0 : GInv maxD none (pyStrip root) (bfsFinal g maxD none [] root) :=
    GInv_bfsFinal g maxD none root (by rw [hstrip]; exact passes_filter_none hne)
  rw [hstrip] at hg0
  have hci : CInv g maxD root (bfsLoop g maxD none (bfsFuel g (pyStrip root))
      (bfsInit [] (pyStrip root))) := by
    rw [hstrip]
    exact (CleanInv_loop g maxD root HG _ _
      (GInv_init maxD none root (passes_filter_none hne)) (CInv_init g maxD root)).2
  exact ⟨hg0, by rw [bfsFinal]; exact hci, hq⟩

/-- Completeness: every node within `n ≤ max_depth` steps of the root is recorded at
depth at most `n`. -/
theorem clean_complete (g : List (String × List String)) (maxD : Nat) (root : String)
    (HG : CleanGraph g) (hroot : sanitize_requirement root = root) (hne : root ≠ "") :
    ∀ (n : Nat) (v : String), ReachIn g root n v → n ≤ maxD →
      ∃ m ≤ n, (v, m) ∈ (bfsFinal g maxD none [] root).depth := by
  obtain ⟨hg, hc, hqnil⟩ := cleanFinal g maxD root HG hroot hne
  intro n v hr
  induction hr with
  | zero =>
    intro _
    exact ⟨0, Nat.le_refl 0, hg.root0⟩
  | succ hru hedge ih =>
    rename_i k u w
    intro hle
    have hk : k ≤ maxD := Nat.le_trans (Nat.le_succ k) hle
    obtain ⟨m, hm, hmem⟩ := ih hk
    have hmlt : m < maxD := by omega
    have huk : u ∈ (bfsFinal g maxD none [] root).depth.map Prod.fst :=
      List.mem_map.mpr ⟨(u, m), hmem, rfl⟩
    have hlookup : List.lookup u (bfsFinal g maxD none [] root).depth = some m :=
      lookup_eq_some_of_mem_nodup hmem hg.keys_nodup
    have hdOf : dictGetD (bfsFinal g maxD none [] root).depth u 0 = m := by
      rw [dictGetD, hlookup]
      rfl
    have hnotq : u ∉ (bfsFinal g maxD none [] root).q := by
      rw [hqnil]
      simp
    obtain ⟨m', hm', hmem'⟩ := hc.complete u huk hnotq (by omega) w hedge
    rw [hdOf] at hm'
    exact ⟨m', by omega, hmem'⟩

/-- Exactness: every recorded depth is the shortest-path distance from the root. -/
theorem clean_exact (g : List (String × List String)) (maxD : Nat) (root : String)
    (HG : CleanGraph g) (hroot : sanitize_requirement root = root) (hne : root ≠ "") :
    ∀ (v : String) (n : Nat),
      List.lookup v (bfsFinal g maxD none [] root).depth = some n →
      IsShortestDist g root v n := by
  obtain ⟨hg, hc, hqnil⟩ := cleanFinal g maxD root HG hroot hne
  intro v n hl
  have hmem := mem_of_lookup_eq_some hl
  refine ⟨hc.sound (v, n) hmem, ?_⟩
  intro m hrm
  have hnle : n ≤ maxD := hg.vals_le (v, n) hmem
  by_cases hmle : m ≤ maxD
  · obtain ⟨m', hm', hmem'⟩ := clean_complete g maxD root HG hroot hne m v hrm hmle
    have : List.lookup v (bfsFinal g maxD none [] root).depth = some m' :=
      lookup_eq_some_of_mem_nodup hmem' hg.keys_nodup
    rw [hl] at this
    have : m' = n := by simpa using this.symm
    omega
  · omega

/-- Domain: the recorded nodes are exactly the ones within `max_depth` of the root. -/
theorem clean_domain (g : List (String × List String)) (maxD : Nat) (root : String)
    (HG : CleanGraph g) (hroot : sanitize_requirement root = root) (hne : root ≠ "") :
    ∀ v, v ∈ (bfsFinal g maxD none [] root).depth.map Prod.fst ↔
      ∃ n, n ≤ maxD ∧ ReachIn g root n v := by
  obtain ⟨hg, hc, hqnil⟩ := cleanFinal g maxD root HG hroot hne
  intro v
  constructor
  · intro hv
    obtain ⟨p, hp, hpv⟩ := List.mem_map.mp hv
    obtain ⟨k, n⟩ := p
    have hkv : k = v := hpv
    rw [hkv] at hp
    exact ⟨n, hg.vals_le (v, n) hp, hc.sound (v, n) hp⟩
  · rintro ⟨n, hn, hr⟩
    obtain ⟨m, hm, hmem⟩ := clean_complete g maxD root HG hroot hne n v hr hn
    exact List.mem_map.mpr ⟨(v, m), hmem, rfl⟩

/-- Every edge out of a node lying strictly within the depth bound is recorded. -/
theorem clean_edge (g : List (String × List String)) (maxD : Nat) (root : String)
    (HG : CleanGraph g) (hroot : sanitize_requirement root = root) (hne : root ≠ "") :
    ∀ (p : String) (m : Nat), ReachIn g root m p → m < maxD →
      ∀ w ∈ gget g p, w ∈ adjGet (bfsFinal g maxD none [] root).adj p := by
  obtain ⟨hg, hc, hqnil⟩ := cleanFinal g maxD root HG hroot hne
  intro p m hr hm w hw
  obtain ⟨m', hm', hmem⟩ := clean_complete g maxD root HG hroot hne m p hr (Nat.le_of_lt hm)
  have hpk : p ∈ (bfsFinal g maxD none [] root).depth.map Prod.fst :=
    List.mem_map.mpr ⟨(p, m'), hmem, rfl⟩
  have hdOf : dictGetD (bfsFinal g maxD none [] root).depth p 0 = m' := by
    rw [dictGetD, lookup_eq_some_of_mem_nodup hmem hg.keys_nodup]
    rfl
  have hnotq : p ∉ (bfsFinal g maxD none [] root).q := by
    rw [hqnil]
    simp
  exact hc.adj_done p hpk hnotq (by omega) w hw

/-- A node at exact distance `max_depth` is recorded but never expanded: it is no key of
the adjacency map. -/
theorem clean_atmax (g : List (String × List String)) (maxD : Nat) (root : String)
    (HG : CleanGraph g) (hroot : sanitize_requirement root = root) (hne : root ≠ "") :
    ∀ v, IsShortestDist g root v maxD →
      v ∈ (bfsFinal g maxD none [] root).depth.map Prod.fst ∧
      v ∉ (bfsFinal g maxD none [] root).adj.map Prod.fst := by
  obtain ⟨hg, hc, hqnil⟩ := cleanFinal g maxD root HG hroot hne
  intro v hv
  constructor
  · exact (clean_domain g maxD root HG hroot hne v).mpr ⟨maxD, Nat.le_refl _, hv.1⟩
  · intro hmem
    obtain ⟨n, hn, hnlt⟩ := hg.adjk_lt v hmem
    have := hv.2 n (hc.sound (v, n) hn)
    omega

/-! ### Tree renderer lemmas -/

theorem flatMap_congr_mem {α β : Type} {f h : α → List β} :
    ∀ {l : List α}, (∀ a ∈ l, f a = h a) → l.flatMap f = l.flatMap h := by
  intro l
  induction l with
  | nil => intro _; rfl
  | cons x xs ih =>
    intro he
    rw [List.flatMap_cons, List.flatMap_cons, he x (List.mem_cons_self _ _),
      ih fun a ha => he a (List.mem_cons_of_mem _ ha)]

/-- The renderer agrees with its structural companion indexed by the remaining budget
`maxD - d`. -/
theorem asciiLines_eq_budget (adj : List (String × List String)) (maxD : Nat) :
    ∀ (n : Nat) (node pfx : String) (path : List String) (d : Nat), maxD - d = n →
      asciiLines adj maxD node pfx path d = asciiBudget adj n node pfx path := by
  intro n
  induction n with
  | zero =>
    intro node pfx path d hd
    have hge : d ≥ maxD := by omega
    rw [asciiLines, dif_pos hge]
    rfl
  | succ k ih =>
    intro node pfx path d hd
    have hlt : ¬ d ≥ maxD := by omega
    rw [asciiLines, dif_neg hlt, asciiBudget]
    congr 1
    by_cases hp : path.contains node
    · rw [if_pos hp, if_pos hp]
    · rw [if_neg hp, if_neg hp]
      exact flatMap_congr_mem fun c _ => ih c (pfx ++ "  ") (node :: path) (d + 1) (by omega)

theorem ascii_tree_eq_budget (adj : List (String × List String)) (maxD : Nat)
    (root : String) :
    ascii_tree adj maxD root = String.intercalate "\n" (asciiBudget adj maxD root "" []) := by
  rw [ascii_tree, asciiLines_eq_budget adj maxD maxD root "" [] 0 (Nat.sub_zero maxD)]

/-- Depth bound reached: only the node's own line is emitted, children and cycle marker
are both suppressed (the depth check precedes the cycle check). -/
theorem asciiLines_at_bound (adj : List (String × List String)) (maxD : Nat)
    (node pfx : String) (path : List String) (d : Nat) (hge : d ≥ maxD) :
    asciiLines adj maxD node pfx path d = [pfx ++ node] := by
  rw [asciiLines, dif_pos hge]

/-- A node repeating on the current path strictly below the bound: its name line plus
exactly one cycle-marker line, no children. -/
theorem asciiLines_cycle_marker (adj : List (String × List String)) (maxD : Nat)
    (node pfx : String) (path : List String) (d : Nat) (hlt : d < maxD)
    (hmem : path.contains node = true) :
    asciiLines adj maxD node pfx path d =
      [pfx ++ node, pfx ++ "  (обнаружен цикл к " ++ node ++ ")"] := by
  rw [asciiLines, dif_neg (by omega), if_pos hmem]

theorem asciiBudget_indent (adj : List (String × List String)) :
    ∀ (n : Nat) (node pfx : String) (path : List String),
      ∀ s ∈ asciiBudget adj n node pfx path, ∃ t, s = pfx ++ t := by
  intro n
  induction n with
  | zero =>
    intro node pfx path s hs
    have : s = pfx ++ node := by simpa [asciiBudget] using hs
    exact ⟨node, this⟩
  | succ k ih =>
    intro node pfx path s hs
    rw [asciiBudget] at hs
    rcases List.mem_cons.mp hs with h | h
    · exact ⟨node, h⟩
    · by_cases hp : path.contains node
      · rw [if_pos hp] at h
        have : s = pfx ++ "  (обнаружен цикл к " ++ node ++ ")" := by simpa using h
        refine ⟨"  (обнаружен цикл к " ++ node ++ ")", ?_⟩
        rw [this]
        simp [String.append_assoc]
      · rw [if_neg hp] at h
        obtain ⟨c, hc, hsc⟩ := List.mem_flatMap.mp h
        obtain ⟨t, ht⟩ := ih c (pfx ++ "  ") (node :: path) s hsc
        exact ⟨"  " ++ t, by rw [ht, String.append_assoc]⟩

/-- Each recursion level indents by two more spaces: every line of a subtree rendered
with prefix `pfx` starts with `pfx`. -/
theorem asciiLines_indent (adj : List (String × List String)) (maxD : Nat)
    (node pfx : String) (path : List String) (d : Nat) :
    ∀ s ∈ asciiLines adj maxD node pfx path d, ∃ t, s = pfx ++ t := by
  rw [asciiLines_eq_budget adj maxD (maxD - d) node pfx path d rfl]
  exact asciiBudget_indent adj (maxD - d) node pfx path

/-! ### Assorted support lemmas for the claim theorems -/

theorem build_bfs_eq_final {g : List (String × List String)} {maxD : Nat}
    {filt : Option String} {adj0 : List (String × List String)} {root : String}
    (hp : passes_filter filt (pyStrip root) = true) :
    build_bfs g maxD filt adj0 root =
      ((bfsFinal g maxD filt adj0 root).adj, (bfsFinal g maxD filt adj0 root).depth) := by
  rw [build_bfs, if_neg (by rw [hp]; simp)]

theorem bfsInit_seenKeys (adj0 : List (String × List String)) (r : String) :
    SeenKeys (bfsInit adj0 r) := by
  intro v
  show v ∈ [r] ↔ v ∈ [(r, 0)].map Prod.fst
  simp

/-- The (stripped) root always keeps its initially assigned depth `0`. -/
theorem bfsFinal_root_depth (g : List (String × List String)) (maxD : Nat)
    (filt : Option String) (adj0 : List (String × List String)) (root : String) :
    List.lookup (pyStrip root) (bfsFinal g maxD filt adj0 root).depth = some 0 := by
  rw [bfsFinal]
  obtain ⟨-, ext, hext⟩ := bfsLoop_extend g maxD filt (bfsFuel g (pyStrip root))
    (bfsInit adj0 (pyStrip root)) (bfsInit_seenKeys adj0 (pyStrip root))
  rw [hext]
  exact lookup_append_some lookup_cons_self

/-- Once a depth is recorded for a name, every later stage of the loop still reports
exactly that depth: first-assigned depths are never overwritten. -/
theorem bfs_no_overwrite (g : List (String × List String)) (maxD : Nat)
    (filt : Option String) (adj0 : List (String × List String)) (root : String)
    (k j : Nat) (v : String) (n : Nat)
    (h : List.lookup v (bfsLoop g maxD filt k (bfsInit adj0 (pyStrip root))).depth = some n) :
    List.lookup v (bfsLoop g maxD filt (k + j) (bfsInit adj0 (pyStrip root))).depth
      = some n := by
  rw [bfsLoop_add]
  obtain ⟨hsk, -⟩ := bfsLoop_extend g maxD filt k (bfsInit adj0 (pyStrip root))
    (bfsInit_seenKeys adj0 (pyStrip root))
  obtain ⟨-, ext, hext⟩ := bfsLoop_extend g maxD filt j _ hsk
  rw [hext]
  exact lookup_append_some h

theorem passes_filter_ne {filt : Option String} {v : String}
    (h : passes_filter filt v = true) : v ≠ "" := by
  intro hv
  rw [hv] at h
  have he : passes_filter filt "" = false := rfl
  rw [he] at h
  cases h

theorem pyLower_ne_empty {f : String} (h : f ≠ "") : pyLower f ≠ "" := by
  intro he
  apply h
  have : (pyLower f).data = [] := by rw [he]
  rw [pyLower] at this
  have hd : f.data.map Char.toLower = [] := this
  have : f.data = [] := List.map_eq_nil_iff.mp hd
  cases f with
  | mk d =>
    rw [show (String.mk d).data = d from rfl] at this
    rw [this]

theorem passes_fails_of_substr {f name : String} (hf : f ≠ "")
    (h : isSubstr (pyLower f) (pyLower name) = true) :
    passes_filter (mkFilter (some f)) name = false := by
  rw [mkFilter, if_neg hf, passes_filter]
  by_cases hn : name = ""
  · rw [if_pos hn]
  · rw [if_neg hn]
    show (if pyLower f = "" then true
      else if isSubstr (pyLower f) (pyLower name) then false else true) = false
    rw [if_neg (pyLower_ne_empty hf), if_pos h]

/-- The decidable mapping-equality check is sound: when it returns `true` the two
adjacency structures agree, as maps sending each node to its sorted neighbor set. -/
theorem adjMapEquiv_sound {a b : List (String × List String)}
    (h : adjMapEquiv a b = true) :
    ∀ k, (List.lookup k a).map sortStrings = (List.lookup k b).map sortStrings := by
  rw [adjMapEquiv, Bool.and_eq_true] at h
  obtain ⟨ha, hb⟩ := h
  rw [List.all_eq_true] at ha hb
  intro k
  cases hla : List.lookup k a with
  | some la =>
    have hmem := mem_of_lookup_eq_some hla
    have := ha (k, la) hmem
    cases hlb : List.lookup k b with
    | some lb =>
      rw [hlb] at this
      have heq : sortStrings lb = sortStrings la := by simpa using this
      show Option.map sortStrings (some la) = Option.map sortStrings (some lb)
      exact congrArg some heq.symm
    | none => rw [hlb] at this; simp at this
  | none =>
    cases hlb : List.lookup k b with
    | some lb =>
      have hmem := mem_of_lookup_eq_some hlb
      have := hb (k, lb) hmem
      rw [hla] at this
      simp at this
    | none => rfl

/-- Every node reachable in the acyclic fixture is one of its four nodes, at distance
at most `2 ≤ 5`. -/
theorem fixAcyclic_reach_bound :
    ∀ v, Reachable fixAcyclic "A" v → ∃ n, n ≤ 5 ∧ ReachIn fixAcyclic "A" n v := by
  have hnodes : ∀ (n : Nat) (v : String), ReachIn fixAcyclic "A" n v →
      v = "A" ∨ v = "B" ∨ v = "C" ∨ v = "D" := by
    intro n v hr
    induction hr with
    | zero => exact Or.inl rfl
    | succ hru hedge ih =>
      rename_i k u w
      rcases ih with h | h | h | h
      · rw [h] at hedge
        have : w ∈ ["B", "C"] := hedge
        rcases List.mem_cons.mp this with h2 | h2
        · exact Or.inr (Or.inl h2)
        · exact Or.inr (Or.inr (Or.inl (by simpa using h2)))
      · rw [h] at hedge
        have : w ∈ ["D"] := hedge
        exact Or.inr (Or.inr (Or.inr (by simpa using this)))
      · rw [h] at hedge
        have : w ∈ ([] : List String) := hedge
        simp at this
      · rw [h] at hedge
        have : w ∈ ([] : List String) := hedge
        simp at this
  intro v hv
  obtain ⟨n, hr⟩ := hv
  rcases hnodes n v hr with h | h | h | h
  · exact ⟨0, by omega, h ▸ ReachIn.zero⟩
  · refine ⟨1, by omega, h ▸ ?_⟩
    exact ReachIn.succ ReachIn.zero (show "B" ∈ gget fixAcyclic "A" by decide)
  · refine ⟨1, by omega, h ▸ ?_⟩
    exact ReachIn.succ ReachIn.zero (show "C" ∈ gget fixAcyclic "A" by decide)
  · refine ⟨2, by omega, h ▸ ?_⟩
    exact ReachIn.succ
      (ReachIn.succ ReachIn.zero (show "B" ∈ gget fixAcyclic "A" by decide))
      (show "D" ∈ gget fixAcyclic "B" by decide)

/-! ### Claim theorems -/

/-- C9: `sanitize_requirement` never raises (it is a total function of its input); it
discards everything from the first `;` on, removes bracketed segments, and keeps only
the prefix before the first whitespace, `(`, `<`, `>`, `=` or `!` — so its output is a
subsequence of its input containing none of those split characters; the empty input maps
to the empty output, and the spec's two examples evaluate as stated. -/
theorem C9_sanitizer :
    sanitize_requirement "" = "" ∧
    sanitize_requirement "pkgname[extra] (==1.0); python_version < \"3.9\"" = "pkgname" ∧
    sanitize_requirement "requests (>=2.0)" = "requests" ∧
    (∀ req, List.Sublist (sanitize_requirement req).data req.data) ∧
    (∀ req, ∀ c ∈ (sanitize_requirement req).data, isSplitChar c = false) := by
  refine ⟨rfl, by decide, by decide, sanitize_sublist, sanitize_no_split⟩

/-- C9 witness: the structural conjuncts applied at a concrete input. -/
theorem C9_sanitizer_witness :
    List.Sublist (sanitize_requirement "requests (>=2.0)").data ("requests (>=2.0)").data ∧
    isSplitChar 'r' = false :=
  ⟨C9_sanitizer.2.2.2.1 "requests (>=2.0)",
    C9_sanitizer.2.2.2.2 "requests (>=2.0)" 'r' (by decide)⟩

/-- C10: `ascii_tree` applies the depth-bound check before the cycle check: a node that
repeats an ancestor of the current path but sits at depth `max_depth` gets its name line
and nothing else — no cycle marker; on the cycle fixture with `max_depth = 3` the second
"A" is printed with no marker. -/
theorem C10_depth_check_first :
    (∀ (adj : List (String × List String)) (maxD : Nat) (node pfx : String)
        (path : List String) (d : Nat), path.contains node = true → d ≥ maxD →
        asciiLines adj maxD node pfx path d = [pfx ++ node]) ∧
    ascii_tree fixCycle 3 "A" = "A\n  B\n    C\n      A" := by
  constructor
  · intro adj maxD node pfx path d _ hge
    exact asciiLines_at_bound adj maxD node pfx path d hge
  · rw [ascii_tree_eq_budget]
    decide

/-- C10 witness: the general conjunct at a concrete repeated node at the bound. -/
theorem C10_depth_check_first_witness :
    asciiLines [] 1 "A" "" ["A"] 1 = ["" ++ "A"] :=
  C10_depth_check_first.1 [] 1 "A" "" ["A"] 1 (by decide) (by decide)

/-- C8: `ascii_tree` terminates on every adjacency map (its recursion is a total
function bounded by depth): below the bound, a node already on the current path emits
exactly one cycle-marker line beneath its name and no children; each level indents by
two spaces (every line of a subtree extends the prefix of its root); on the cycle
fixture the whole render terminates with the marker, and on the diamond adjacency the
same node "D" is rendered twice along non-overlapping paths, children in lexicographic
order. -/
theorem C8_ascii_tree :
    (∀ (adj : List (String × List String)) (maxD : Nat) (node pfx : String)
        (path : List String) (d : Nat), d < maxD → path.contains node = true →
        asciiLines adj maxD node pfx path d =
          [pfx ++ node, pfx ++ "  (обнаружен цикл к " ++ node ++ ")"]) ∧
    (∀ (adj : List (String × List String)) (maxD : Nat) (node pfx : String)
        (path : List String) (d : Nat), ∀ s ∈ asciiLines adj maxD node pfx path d,
        ∃ t, s = pfx ++ t) ∧
    ascii_tree fixCycle 10 "A" = "A\n  B\n    C\n      A\n        (обнаружен цикл к A)" ∧
    ascii_tree diamondAdj 5 "A" = "A\n  B\n    D\n  C\n    D" := by
  refine ⟨asciiLines_cycle_marker, asciiLines_indent, ?_, ?_⟩
  · rw [ascii_tree_eq_budget]
    decide
  · rw [ascii_tree_eq_budget]
    decide

/-- C8 witness: the cycle-marker conjunct at a concrete repeated node below the bound. -/
theorem C8_ascii_tree_witness :
    asciiLines [] 2 "A" "" ["A"] 0 = ["" ++ "A", "" ++ "  (обнаружен цикл к " ++ "A" ++ ")"] :=
  C8_ascii_tree.1 [] 2 "A" "" ["A"] 0 (by decide) (by decide)

/-- C5 counterexample: two genuine builder states (produced by running the same two
roots in opposite orders over the same fixture on reused instances) are equal as
mappings from node to neighbor set, yet `export_adjlist` produces different outputs —
the keys follow dict insertion order, they are not sorted. -/
theorem C5_export_counterexample :
    adjMapEquiv
        (build_bfs fixTwoComp 3 none (build_bfs fixTwoComp 3 none [] "A").1 "X").1
        (build_bfs fixTwoComp 3 none (build_bfs fixTwoComp 3 none [] "X").1 "A").1 = true ∧
    export_adjlist
        (build_bfs fixTwoComp 3 none (build_bfs fixTwoComp 3 none [] "A").1 "X").1 ≠
      export_adjlist
        (build_bfs fixTwoComp 3 none (build_bfs fixTwoComp 3 none [] "X").1 "A").1 := by
  decide

/-- C5 (amended): `export_adjlist` sorts each neighbor set, so its output is invariant
under any reordering of the neighbor sets and under re-running the same deterministic
build; but keys are emitted in dict insertion order, so byte-identical output is only
guaranteed for builder states whose keys were inserted in the same order.  Formally:
states with equal key sequences and permuted neighbor sets export identically, keys are
exported in insertion-iteration order, and every exported neighbor list is sorted. -/
theorem C5_export_deterministic :
    (∀ (a b : List (String × List String)),
        List.Forall₂ (fun p q : String × List String => p.1 = q.1 ∧ p.2.Perm q.2) a b →
        export_adjlist a = export_adjlist b) ∧
    (∀ (a : List (String × List String)),
        (export_adjlist a).map Prod.fst = a.map Prod.fst) ∧
    (∀ (a : List (String × List String)) (k : String) (l : List String),
        (k, l) ∈ export_adjlist a → List.Sorted strRel l) := by
  refine ⟨?_, ?_, ?_⟩
  · intro a b h
    induction h with
    | nil => rfl
    | cons hpq htail ih =>
      rename_i p q l1 l2
      show (p.1, sortStrings p.2) :: export_adjlist l1 =
        (q.1, sortStrings q.2) :: export_adjlist l2
      rw [hpq.1, sortStrings_perm_congr _ _ hpq.2, ih]
  · intro a
    rw [export_adjlist, List.map_map]
    have hid : (Prod.fst ∘ fun kv : String × List String => (kv.1, sortStrings kv.2)) =
        Prod.fst := rfl
    rw [hid]
  · intro a k l hmem
    rw [export_adjlist] at hmem
    obtain ⟨kv, _, hkv⟩ := List.mem_map.mp hmem
    have : sortStrings kv.2 = l := congrArg Prod.snd hkv
    rw [← this]
    exact List.sorted_insertionSort strRel kv.2

/-- C5 witness: neighbor-set order does not affect the export. -/
theorem C5_export_deterministic_witness :
    export_adjlist [("A", ["C", "B"])] = export_adjlist [("A", ["B", "C"])] :=
  C5_export_deterministic.1 [("A", ["C", "B"])] [("A", ["B", "C"])]
    (List.Forall₂.cons ⟨rfl, by decide⟩ List.Forall₂.nil)

/-- C6 counterexample: `self.adj` is instance state, not per-invocation state — after a
first `build_bfs("A")` on the fixture with two components, a second `build_bfs("X")` on
the same instance returns an adjacency map that still contains the first call's edge
`A → B`, unlike a fresh instance's result. -/
theorem C6_adj_counterexample :
    (build_bfs fixTwoComp 3 none (build_bfs fixTwoComp 3 none [] "A").1 "X").1 ≠
      (build_bfs fixTwoComp 3 none [] "X").1 ∧
    memAdj (build_bfs fixTwoComp 3 none (build_bfs fixTwoComp 3 none [] "A").1 "X").1
      "A" "B" = true := by
  decide

/-- C6 (amended): the depth map really is per-invocation — it never depends on the
adjacency the instance accumulated — but the adjacency map is shared instance state:
whenever the root passes the filter, every edge already in `self.adj` before the call is
still in the returned adjacency map, so a second call's result includes the first
call's edges. -/
theorem C6_adj_instance_state :
    (∀ (g : List (String × List String)) (maxD : Nat) (filt : Option String)
        (adj0 : List (String × List String)) (root : String),
        (build_bfs g maxD filt adj0 root).2 = (build_bfs g maxD filt [] root).2) ∧
    (∀ (g : List (String × List String)) (maxD : Nat) (filt : Option String)
        (adj0 : List (String × List String)) (root u w : String),
        passes_filter filt (pyStrip root) = true →
        memAdj adj0 u w = true → memAdj (build_bfs g maxD filt adj0 root).1 u w = true) := by
  constructor
  · exact build_bfs_depth_irrel
  · intro g maxD filt adj0 root u w hp hm
    rw [build_bfs_eq_final hp]
    show memAdj (bfsFinal g maxD filt adj0 root).adj u w = true
    rw [memAdj_true_iff]
    rw [bfsFinal]
    exact bfsLoop_adj_mono g maxD filt _ _ (bfsInit_seenKeys adj0 (pyStrip root)) u w
      (memAdj_true_iff.mp hm)

/-- C6 witness: a pre-existing instance edge survives a build whose root passes. -/
theorem C6_adj_instance_state_witness :
    memAdj (build_bfs fixCycle 3 none [("Q", ["R"])] "A").1 "Q" "R" = true :=
  C6_adj_instance_state.2 fixCycle 3 none [("Q", ["R"])] "A" "Q" "R" (by decide) (by decide)

/-- C7: after a `build_bfs` invocation on a freshly constructed `DependencyGraph`, the
two returned maps are consistent — every adjacency key and every neighbor-set member is
a key of the depth map — and no name in either map is the empty string. -/
theorem C7_consistency :
    ∀ (g : List (String × List String)) (maxD : Nat) (filt : Option String) (root : String),
      (∀ u, u ∈ (build_bfs g maxD filt [] root).1.map Prod.fst →
        u ∈ (build_bfs g maxD filt [] root).2.map Prod.fst) ∧
      (∀ u w, memAdj (build_bfs g maxD filt [] root).1 u w = true →
        w ∈ (build_bfs g maxD filt [] root).2.map Prod.fst) ∧
      (∀ v, v ∈ (build_bfs g maxD filt [] root).2.map Prod.fst → v ≠ "") := by
  intro g maxD filt root
  by_cases hp : passes_filter filt (pyStrip root) = true
  · rw [build_bfs_eq_final hp]
    have hg := GInv_bfsFinal g maxD filt root hp
    refine ⟨?_, ?_, ?_⟩
    · intro u hu
      obtain ⟨n, hn, -⟩ := hg.adjk_lt u hu
      exact List.mem_map.mpr ⟨(u, n), hn, rfl⟩
    · intro u w hw
      exact hg.adjm u w (memAdj_true_iff.mp hw)
    · intro v hv
      exact passes_filter_ne (hg.pass v hv)
  · have hp2 : passes_filter filt (pyStrip root) = false := by
      cases h : passes_filter filt (pyStrip root) with
      | true => exact absurd h hp
      | false => rfl
    rw [build_bfs, if_pos hp2]
    refine ⟨?_, ?_, ?_⟩
    · intro u hu
      simp at hu
    · intro u w hw
      have : memAdj ([] : List (String × List String)) u w = true := hw
      cases this
    · intro v hv
      simp at hv

/-- C7 witness: on the cycle fixture, the adjacency key "C" indeed appears in the
depth map. -/
theorem C7_consistency_witness :
    "C" ∈ (build_bfs fixCycle 10 none [] "A").2.map Prod.fst :=
  (C7_consistency fixCycle 10 none "A").1 "C" (by decide)

/-- C3: for every configured (nonempty) filter string, a package name containing the
lowered filter in its lowercased form never appears in the result of a fresh-instance
`build_bfs` — not as a depth key, not as an adjacency key, not in any neighbor set; if
the trimmed root itself matches, both returned maps are empty; the filter scenario on
the cycle fixture evaluates as stated. -/
theorem C3_filter_exclusion :
    (∀ (g : List (String × List String)) (maxD : Nat) (f root : String), f ≠ "" →
      (∀ name, isSubstr (pyLower f) (pyLower name) = true →
        name ∉ (build_bfs g maxD (mkFilter (some f)) [] root).2.map Prod.fst ∧
        name ∉ (build_bfs g maxD (mkFilter (some f)) [] root).1.map Prod.fst ∧
        (∀ u, memAdj (build_bfs g maxD (mkFilter (some f)) [] root).1 u name = false)) ∧
      (isSubstr (pyLower f) (pyLower (pyStrip root)) = true →
        build_bfs g maxD (mkFilter (some f)) [] root = ([], []))) ∧
    build_bfs fixCycle 10 (mkFilter (some "C")) [] "A" =
      ([("A", ["B"])], [("A", 0), ("B", 1)]) := by
  constructor
  · intro g maxD f root hf
    constructor
    · intro name hsub
      have hfail : passes_filter (mkFilter (some f)) name = false :=
        passes_fails_of_substr hf hsub
      by_cases hp : passes_filter (mkFilter (some f)) (pyStrip root) = true
      · rw [build_bfs_eq_final hp]
        have hg := GInv_bfsFinal g maxD (mkFilter (some f)) root hp
        refine ⟨?_, ?_, ?_⟩
        · intro hmem
          rw [hg.pass name hmem] at hfail
          cases hfail
        · intro hmem
          obtain ⟨n, hn, -⟩ := hg.adjk_lt name hmem
          rw [hg.pass name (List.mem_map.mpr ⟨(name, n), hn, rfl⟩)] at hfail
          cases hfail
        · intro u
          cases h : memAdj (bfsFinal g maxD (mkFilter (some f)) [] root).adj u name with
          | true =>
            have := hg.adjm u name (memAdj_true_iff.mp h)
            rw [hg.pass name this] at hfail
            cases hfail
          | false => rfl
      · have hp2 : passes_filter (mkFilter (some f)) (pyStrip root) = false := by
          cases h : passes_filter (mkFilter (some f)) (pyStrip root) with
          | true => exact absurd h hp
          | false => rfl
        rw [build_bfs, if_pos hp2]
        exact ⟨by simp, by simp, fun u => rfl⟩
    · intro hsub
      rw [build_bfs, if_pos (passes_fails_of_substr hf hsub)]
  · decide

/-- C3 witness: on the cycle fixture with filter "C", the name "C" is absent from the
depth map. -/
theorem C3_filter_exclusion_witness :
    "C" ∉ (build_bfs fixCycle 10 (mkFilter (some "C")) [] "A").2.map Prod.fst :=
  ((C3_filter_exclusion.1 fixCycle 10 "C" "A" (by decide)).1 "C" (by decide)).1

/-- C4: the source is never called for a node whose recorded depth has reached
`max_depth` (every logged call carries a recorded depth strictly below the bound, while
the node stays in the depth map); over a clean graph with no filter, every node in
either returned map is reachable within `max_depth` edges, adjacency keys even within
`max_depth - 1`; and a node at shortest distance exactly `max_depth` is a depth-map key
but contributes no outgoing edges. -/
theorem C4_depth_bound :
    (∀ (g : List (String × List String)) (maxD : Nat) (filt : Option String) (root : String),
      passes_filter filt (pyStrip root) = true →
      ∀ u ∈ (bfsFinal g maxD filt [] root).calls,
        ∃ n, List.lookup u (bfsFinal g maxD filt [] root).depth = some n ∧ n < maxD) ∧
    (∀ (g : List (String × List String)) (maxD : Nat) (root : String),
      CleanGraph g → sanitize_requirement root = root → root ≠ "" →
      (∀ v, v ∈ (build_bfs g maxD none [] root).2.map Prod.fst →
        ∃ n, n ≤ maxD ∧ ReachIn g root n v) ∧
      (∀ u, u ∈ (build_bfs g maxD none [] root).1.map Prod.fst →
        ∃ n, n < maxD ∧ ReachIn g root n u) ∧
      (∀ u w, memAdj (build_bfs g maxD none [] root).1 u w = true →
        ∃ n, n ≤ maxD ∧ ReachIn g root n w) ∧
      (∀ v, IsShortestDist g root v maxD →
        v ∈ (build_bfs g maxD none [] root).2.map Prod.fst ∧
        v ∉ (build_bfs g maxD none [] root).1.map Prod.fst)) := by
  constructor
  · intro g maxD filt root hp u hu
    have hg := GInv_bfsFinal g maxD filt root hp
    obtain ⟨n, hn, hnlt⟩ := hg.calls_ok u hu
    exact ⟨n, lookup_eq_some_of_mem_nodup hn hg.keys_nodup, hnlt⟩
  · intro g maxD root HG hroot hne
    have hstrip := sanitize_id_strip hroot
    have hp : passes_filter none (pyStrip root) = true := by
      rw [hstrip]
      exact passes_filter_none hne
    obtain ⟨hg, hc, hqnil⟩ := cleanFinal g maxD root HG hroot hne
    rw [build_bfs_eq_final hp]
    refine ⟨?_, ?_, ?_, ?_⟩
    · intro v hv
      obtain ⟨n, hn, hr⟩ := (clean_domain g maxD root HG hroot hne v).mp hv
      exact ⟨n, hn, hr⟩
    · intro u hu
      obtain ⟨n, hn, hnlt⟩ := hg.adjk_lt u hu
      exact ⟨n, hnlt, hc.sound (u, n) hn⟩
    · intro u w hw
      have hwk := hg.adjm u w (memAdj_true_iff.mp hw)
      obtain ⟨n, hn, hr⟩ := (clean_domain g maxD root HG hroot hne w).mp hwk
      exact ⟨n, hn, hr⟩
    · exact clean_atmax g maxD root HG hroot hne

/-- C4 witness: on the acyclic fixture every logged source call sits below the bound;
here the call for "A". -/
theorem C4_depth_bound_witness :
    ∃ n, List.lookup "A" (bfsFinal fixAcyclic 5 none [] "A").depth = some n ∧ n < 5 :=
  C4_depth_bound.1 fixAcyclic 5 none "A" (by decide) "A" (by decide)

/-- C2 counterexample: the claim's unconditional cycle-edge statement is false — on the
two-node cycle through root "A" with `max_depth = 1`, the cycle-closing edge `B → A` is
never recorded because "B" sits at the depth bound and is not expanded. -/
theorem C2_cycle_counterexample :
    "B" ∈ gget fixTwoCycle "A" ∧ "A" ∈ gget fixTwoCycle "B" ∧
    memAdj (build_bfs fixTwoCycle 1 none [] "A").1 "B" "A" = false := by
  decide

/-- C2 (amended): on any graph (cyclic ones included) the loop terminates — the fixed
fuel drains the queue; a recorded depth is never overwritten at any later stage of the
run; the stripped root always keeps depth 0; and the cycle-closing edge into the root is
recorded provided its source lies at distance strictly below `max_depth` (this proviso
is what the counterexample forces); the cycle scenario evaluates as stated. -/
theorem C2_cycle_handling :
    (∀ (g : List (String × List String)) (maxD : Nat) (filt : Option String)
        (adj0 : List (String × List String)) (root : String),
      (bfsFinal g maxD filt adj0 root).q = []) ∧
    (∀ (g : List (String × List String)) (maxD : Nat) (filt : Option String)
        (adj0 : List (String × List String)) (root : String) (k j : Nat)
        (v : String) (n : Nat),
      List.lookup v (bfsLoop g maxD filt k (bfsInit adj0 (pyStrip root))).depth = some n →
      List.lookup v (bfsLoop g maxD filt (k + j) (bfsInit adj0 (pyStrip root))).depth
        = some n) ∧
    (∀ (g : List (String × List String)) (maxD : Nat) (filt : Option String)
        (adj0 : List (String × List String)) (root : String),
      List.lookup (pyStrip root) (bfsFinal g maxD filt adj0 root).depth = some 0) ∧
    (∀ (g : List (String × List String)) (maxD : Nat) (root p : String) (m : Nat),
      CleanGraph g → sanitize_requirement root = root → root ≠ "" →
      ReachIn g root m p → root ∈ gget g p → m < maxD →
      memAdj (build_bfs g maxD none [] root).1 p root = true) ∧
    build_bfs fixCycle 10 none [] "A" =
      ([("A", ["B"]), ("B", ["C"]), ("C", ["A"])], [("A", 0), ("B", 1), ("C", 2)]) := by
  refine ⟨bfsFinal_q_nil, bfs_no_overwrite, bfsFinal_root_depth, ?_, by decide⟩
  intro g maxD root p m HG hroot hne hr hedge hm
  have hstrip := sanitize_id_strip hroot
  have hp : passes_filter none (pyStrip root) = true := by
    rw [hstrip]
    exact passes_filter_none hne
  rw [build_bfs_eq_final hp]
  show memAdj (bfsFinal g maxD none [] root).adj p root = true
  rw [memAdj_true_iff]
  exact clean_edge g maxD root HG hroot hne p m hr hm root hedge

/-- C2 witness: on the cycle fixture the closing edge `C → A` is recorded, via the
amended cycle-edge conjunct. -/
theorem C2_cycle_handling_witness :
    memAdj (build_bfs fixCycle 10 none [] "A").1 "C" "A" = true :=
  C2_cycle_handling.2.2.2.1 fixCycle 10 "A" "C" 2 (by decide) (by decide) (by decide)
    (ReachIn.succ
      (ReachIn.succ ReachIn.zero (show "B" ∈ gget fixCycle "A" by decide))
      (show "C" ∈ gget fixCycle "B" by decide))
    (show "A" ∈ gget fixCycle "C" by decide) (by omega)

/-- C1: over any fixture graph of bare package names with no filter (cyclic or not),
whenever `max_depth` is at least the eccentricity of the root — as is implied by
`max_depth ≥ diameter` for an acyclic graph — `build_bfs` records exactly the nodes
reachable from the root, each at exactly its shortest-path distance in edges, the root
at depth 0; the acyclic scenario evaluates as stated. -/
theorem C1_bfs_shortest_paths :
    (∀ (g : List (String × List String)) (maxD : Nat) (root : String),
      CleanGraph g → sanitize_requirement root = root → root ≠ "" →
      (∀ v, Reachable g root v → ∃ n, n ≤ maxD ∧ ReachIn g root n v) →
      (∀ v, v ∈ (build_bfs g maxD none [] root).2.map Prod.fst ↔ Reachable g root v) ∧
      (∀ v n, List.lookup v (build_bfs g maxD none [] root).2 = some n →
        IsShortestDist g root v n)) ∧
    build_bfs fixAcyclic 5 none [] "A" =
      ([("A", ["B", "C"]), ("B", ["D"])], [("A", 0), ("B", 1), ("C", 1), ("D", 2)]) := by
  constructor
  · intro g maxD root HG hroot hne hecc
    have hstrip := sanitize_id_strip hroot
    have hp : passes_filter none (pyStrip root) = true := by
      rw [hstrip]
      exact passes_filter_none hne
    rw [build_bfs_eq_final hp]
    constructor
    · intro v
      have hd := clean_domain g maxD root HG hroot hne v
      constructor
      · intro hv
        obtain ⟨n, -, hr⟩ := hd.mp hv
        exact ⟨n, hr⟩
      · intro hv
        exact hd.mpr (hecc v hv)
    · intro v n hl
      exact clean_exact g maxD root HG hroot hne v n hl
  · decide

/-- C1 witness: on the acyclic fixture, depth "D" ↦ 2 really is the shortest-path
distance. -/
theorem C1_bfs_shortest_paths_witness :
    List.lookup "D" (build_bfs fixAcyclic 5 none [] "A").2 = some 2 ∧
    IsShortestDist fixAcyclic "A" "D" 2 :=
  ⟨by decide,
    (C1_bfs_shortest_paths.1 fixAcyclic 5 "A" (by decide) (by decide) (by decide)
      fixAcyclic_reach_bound).2 "D" 2 (by decide)⟩
